import Mathlib

/-!
# SHA-256 streaming digest (`zarchive/sha_256.cc`)

A shallow embedding of the incremental SHA-256 hasher: the block transform
`sha_256_transform`, the streaming writer `sha_256_write`, the finaliser
`sha_256_close`, and the properties of the natural-language specification
checked against them.

Machine integers are natural numbers: a `uint8_t` is a `Nat` below `2^8`, a
`uint32_t` a `Nat` below `2^32` (every addition is followed by `% 2^32`), the
64-bit counter a `Nat` below `2^64`.  Arrays are lists, a pointer into an
array is the list of the bytes from that position on.  The theorems state
what they need of these types as hypotheses: a buffer of 64 bytes, state words
below `2^32`, input bytes below `2^8`.
-/

namespace Sha256

/-! ## Data model -/

/-- Modelled from the spec: `struct Sha_256` is declared in `sha_256.h`, which
is not part of the sources; the fields are the ones the code uses and the spec
lists: 8 unsigned 32-bit state words, a 64-byte staging buffer, the count
`curlen` of valid bytes in the buffer (a `uint32_t`) and the 64-bit counter
`length`. -/
structure Sha_256 where
  state : List Nat
  buffer : List Nat
  curlen : Nat
  length : Nat
deriving DecidableEq, Repr

/-- A byte array: every element is a `uint8_t`. -/
def Bytes (data : List Nat) : Prop := ∀ x ∈ data, x < 2 ^ 8

/-! ## The bit operations -/

/-- Definition `ROTRIGHT(word,bits)`: `((word) >> (bits)) | ((word) << (32-(bits)))`
on `uint32_t`. -/
def ROTRIGHT (word bits : Nat) : Nat :=
  (word >>> bits) ||| ((word <<< (32 - bits)) % 2 ^ 32)

/-- Complement `~x` of a `uint32_t`. -/
def NOT32 (x : Nat) : Nat := 2 ^ 32 - 1 - x

/-- Definition `CH(x,y,z)`: `((x) & (y)) ^ (~(x) & (z))`. -/
def CH (x y z : Nat) : Nat := (x &&& y) ^^^ (NOT32 x &&& z)

/-- Definition `MAJ(x,y,z)`: `((x) & (y)) ^ ((x) & (z)) ^ ((y) & (z))`. -/
def MAJ (x y z : Nat) : Nat := (x &&& y) ^^^ (x &&& z) ^^^ (y &&& z)

/-- Definition `EP0(x)`: `ROTRIGHT(x,2) ^ ROTRIGHT(x,13) ^ ROTRIGHT(x,22)`. -/
def EP0 (x : Nat) : Nat := ROTRIGHT x 2 ^^^ ROTRIGHT x 13 ^^^ ROTRIGHT x 22

/-- Definition `EP1(x)`: `ROTRIGHT(x,6) ^ ROTRIGHT(x,11) ^ ROTRIGHT(x,25)`. -/
def EP1 (x : Nat) : Nat := ROTRIGHT x 6 ^^^ ROTRIGHT x 11 ^^^ ROTRIGHT x 25

/-- Definition `SIG0(x)`: `ROTRIGHT(x,7) ^ ROTRIGHT(x,18) ^ ((x) >> 3)`. -/
def SIG0 (x : Nat) : Nat := ROTRIGHT x 7 ^^^ ROTRIGHT x 18 ^^^ (x >>> 3)

/-- Definition `SIG1(x)`: `ROTRIGHT(x,17) ^ ROTRIGHT(x,19) ^ ((x) >> 10)`. -/
def SIG1 (x : Nat) : Nat := ROTRIGHT x 17 ^^^ ROTRIGHT x 19 ^^^ (x >>> 10)

/-- The table `K[64]` of round constants (the hexadecimal digits of the source,
in upper case). -/
def K : List Nat :=
  [0x428A2F98, 0x71374491, 0xB5C0FBCF, 0xE9B5DBA5, 0x3956C25B, 0x59F111F1, 0x923F82A4, 0xAB1C5ED5,
   0xD807AA98, 0x12835B01, 0x243185BE, 0x550C7DC3, 0x72BE5D74, 0x80DEB1FE, 0x9BDC06A7, 0xC19BF174,
   0xE49B69C1, 0xEFBE4786, 0x0FC19DC6, 0x240CA1CC, 0x2DE92C6F, 0x4A7484AA, 0x5CB0A9DC, 0x76F988DA,
   0x983E5152, 0xA831C66D, 0xB00327C8, 0xBF597FC7, 0xC6E00BF3, 0xD5A79147, 0x06CA6351, 0x14292967,
   0x27B70A85, 0x2E1B2138, 0x4D2C6DFC, 0x53380D13, 0x650A7354, 0x766A0ABB, 0x81C2C92E, 0x92722C85,
   0xA2BFE8A1, 0xA81A664B, 0xC24B8B70, 0xC76C51A3, 0xD192E819, 0xD6990624, 0xF40E3585, 0x106AA070,
   0x19A4C116, 0x1E376C08, 0x2748774C, 0x34B0BCB5, 0x391C0CB3, 0x4ED8AA4A, 0x5B9CCA4F, 0x682E6FF3,
   0x748F82EE, 0x78A5636F, 0x84C87814, 0x8CC70208, 0x90BEFFFA, 0xA4506CEB, 0xBEF9A3F7, 0xC67178F2]

/-! ## `sha_256_transform` -/

/-- Body of the first loop of `sha_256_transform` (with `j = 4 * i`):
`m[i] = data[j] << 24 | data[j+1] << 16 | data[j+2] << 8 | data[j+3]`. -/
def load_step (data : List Nat) (m : List Nat) (i : Nat) : List Nat :=
  m.set i (((data.getD (4 * i) 0) <<< 24) ||| ((data.getD (4 * i + 1) 0) <<< 16) |||
           ((data.getD (4 * i + 2) 0) <<< 8) ||| (data.getD (4 * i + 3) 0))

/-- Body of the second loop:
`m[i] = SIG1(m[i - 2]) + m[i - 7] + SIG0(m[i - 15]) + m[i - 16]`. -/
def expand_step (m : List Nat) (i : Nat) : List Nat :=
  m.set i ((SIG1 (m.getD (i - 2) 0) + m.getD (i - 7) 0 + SIG0 (m.getD (i - 15) 0)
            + m.getD (i - 16) 0) % 2 ^ 32)

/-- The message schedule `m[64]` after the two loops (`i = 0..15`, then
`i = 16..63`); the uninitialised array is taken as all zero. -/
def message_schedule (data : List Nat) : List Nat :=
  (List.range' 16 48).foldl expand_step
    ((List.range 16).foldl (load_step data) (List.replicate 64 0))

/-- The working variables `a, b, c, d, e, f, g, h`. -/
structure Vars where
  a : Nat
  b : Nat
  c : Nat
  d : Nat
  e : Nat
  f : Nat
  g : Nat
  h : Nat
deriving DecidableEq, Repr

/-- Body of the main loop. -/
def round_step (m : List Nat) (v : Vars) (i : Nat) : Vars :=
  let t1 := (v.h + EP1 v.e + CH v.e v.f v.g + K.getD i 0 + m.getD i 0) % 2 ^ 32
  let t2 := (EP0 v.a + MAJ v.a v.b v.c) % 2 ^ 32
  { h := v.g, g := v.f, f := v.e, e := (v.d + t1) % 2 ^ 32,
    d := v.c, c := v.b, b := v.a, a := (t1 + t2) % 2 ^ 32 }

/-- Function `sha_256_transform(sha, data)`: reads `data[0..64)`, updates the 8 state
words and nothing else. -/
def sha_256_transform (sha : Sha_256) (data : List Nat) : Sha_256 :=
  let m := message_schedule data
  let v0 : Vars :=
    { a := sha.state.getD 0 0, b := sha.state.getD 1 0, c := sha.state.getD 2 0,
      d := sha.state.getD 3 0, e := sha.state.getD 4 0, f := sha.state.getD 5 0,
      g := sha.state.getD 6 0, h := sha.state.getD 7 0 }
  let v := (List.range 64).foldl (round_step m) v0
  let st := sha.state
  let st := st.set 0 ((st.getD 0 0 + v.a) % 2 ^ 32)
  let st := st.set 1 ((st.getD 1 0 + v.b) % 2 ^ 32)
  let st := st.set 2 ((st.getD 2 0 + v.c) % 2 ^ 32)
  let st := st.set 3 ((st.getD 3 0 + v.d) % 2 ^ 32)
  let st := st.set 4 ((st.getD 4 0 + v.e) % 2 ^ 32)
  let st := st.set 5 ((st.getD 5 0 + v.f) % 2 ^ 32)
  let st := st.set 6 ((st.getD 6 0 + v.g) % 2 ^ 32)
  let st := st.set 7 ((st.getD 7 0 + v.h) % 2 ^ 32)
  { sha with state := st }

/-! ## `sha_256_init` -/

/-- Function `sha_256_init(sha, hash)`: sets `curlen`, `length` and the 8 state words;
the buffer is not touched and the argument `hash` is not used. -/
def sha_256_init (sha : Sha_256) : Sha_256 :=
  { sha with
    curlen := 0
    length := 0
    state := [0x6a09e667, 0xbb67ae85, 0x3c6ef372, 0xa54ff53a,
              0x510e527f, 0x9b05688c, 0x1f83d9ab, 0x5be0cd19] }

/-! ## `sha_256_write` -/

/-- Copy `memcpy(dst + off, src, n)` on lists; inside the array when
`off + n ≤ dst.length` and `n ≤ src.length`. -/
def memcpy (dst : List Nat) (off : Nat) (src : List Nat) (n : Nat) : List Nat :=
  dst.take off ++ src.take n ++ dst.drop (off + n)

/-- The copy count of the buffered branch: `n = 64 - sha->curlen` in
`uint32_t`, then `if (n > length) n = length`. -/
def copy_count (curlen len : Nat) : Nat :=
  let n := (64 + 2 ^ 32 - curlen) % 2 ^ 32
  if n > len then len else n

/-- One iteration of the `while (length > 0)` loop of `sha_256_write`, for a
non-empty remaining input `data`: the new state and the remaining input. -/
def sha_256_write_step (sha : Sha_256) (data : List Nat) : Sha_256 × List Nat :=
  if sha.curlen = 0 ∧ data.length ≥ 64 then
    let sha := sha_256_transform sha data
    let sha := { sha with length := (sha.length + 64 * 8) % 2 ^ 64 }
    (sha, data.drop 64)
  else
    let n := copy_count sha.curlen data.length
    let sha := { sha with buffer := memcpy sha.buffer sha.curlen data n }
    let sha := { sha with curlen := (sha.curlen + n) % 2 ^ 32 }
    let sha :=
      if sha.curlen = 64 then
        let sha := sha_256_transform sha sha.buffer
        let sha := { sha with length := (sha.length + 64 * 8) % 2 ^ 64 }
        { sha with curlen := 0 }
      else sha
    (sha, data.drop n)

/-- The `while (length > 0)` loop, with a bound on the number of iterations. -/
def sha_256_write_loop : Nat → Sha_256 → List Nat → Sha_256
  | 0, sha, _ => sha
  | fuel + 1, sha, data =>
    if data.length > 0 then
      sha_256_write_loop fuel (sha_256_write_step sha data).1 (sha_256_write_step sha data).2
    else sha

/-- Function `sha_256_write(sha, data, length)`.  From a state with
`curlen ≤ 63` every iteration consumes at least one byte, so `length + 1`
iterations are more than enough (`sha_256_write_loop_fuel`). -/
def sha_256_write (sha : Sha_256) (data : List Nat) : Sha_256 :=
  sha_256_write_loop (data.length + 1) sha data

/-! ## `sha_256_close` -/

/-- The array `finalcount[8]`:
`finalcount[i] = (uint8_t)((sha->length >> ((7 - i) * 8)) & 255)`. -/
def finalcount (length : Nat) : List Nat :=
  (List.range 8).map fun i => ((length >>> ((7 - i) * 8)) &&& 255) % 2 ^ 8

/-- The loop `while (sha->curlen != 56) sha_256_write(sha, "\0", 1)`, with a
bound on the number of iterations; `none` when the bound is reached. -/
def sha_256_close_pad : Nat → Sha_256 → Option Sha_256
  | 0, _ => none
  | fuel + 1, sha =>
    if sha.curlen ≠ 56 then sha_256_close_pad fuel (sha_256_write sha [0])
    else some sha

/-- Body of the last loop of `sha_256_close`: the word `state[i]` is stored
big-endian at `buffer + 4 * i`. -/
def store_step (sha : Sha_256) (i : Nat) : Sha_256 :=
  let t := sha.state.getD i 0
  let buf := sha.buffer
  let buf := buf.set (i * 4) (((t >>> 24) &&& 0xff) % 2 ^ 8)
  let buf := buf.set (i * 4 + 1) (((t >>> 16) &&& 0xff) % 2 ^ 8)
  let buf := buf.set (i * 4 + 2) (((t >>> 8) &&& 0xff) % 2 ^ 8)
  let buf := buf.set (i * 4 + 3) ((t &&& 0xff) % 2 ^ 8)
  { sha with buffer := buf }

/-- Function `sha_256_close(sha)`.  The padding loop is run with a bound of 64
iterations, which it never reaches from a state with `curlen ≤ 63`. -/
def sha_256_close (sha : Sha_256) : Option Sha_256 :=
  let fc := finalcount sha.length
  let sha := sha_256_write sha [0x80]
  match sha_256_close_pad 64 sha with
  | none => none
  | some sha =>
    let sha := sha_256_write sha fc
    some ((List.range 8).foldl store_step sha)

/-- The 32 digest bytes `buffer[0..32)`. -/
def digest (sha : Sha_256) : List Nat := sha.buffer.take 32

/-- A state before `sha_256_init`: all fields zero. -/
def blank : Sha_256 :=
  { state := List.replicate 8 0, buffer := List.replicate 64 0, curlen := 0, length := 0 }

/-- The whole life cycle on the memory `sha0`: `sha_256_init`, one
`sha_256_write` per chunk, then `sha_256_close`; the result is
`buffer[0..32)`. -/
def hash_chunks (sha0 : Sha_256) (chunks : List (List Nat)) : Option (List Nat) :=
  (sha_256_close (chunks.foldl sha_256_write (sha_256_init sha0))).map digest

/-! ## The writer without the fast path

The comparison point of the refinement claim on `sha_256_write`: these
definitions follow the words of the specification, not the code. -/

/-- The naive writer on one byte: the byte is copied into the buffer at
`curlen`, and the buffer is compressed when it reaches 64 bytes. -/
def naive_push (sha : Sha_256) (b : Nat) : Sha_256 :=
  let sha := { sha with buffer := sha.buffer.set sha.curlen b, curlen := sha.curlen + 1 }
  if sha.curlen = 64 then
    let sha := sha_256_transform sha sha.buffer
    { sha with length := (sha.length + 512) % 2 ^ 64, curlen := 0 }
  else sha

/-- The naive writer: every byte goes through the buffer. -/
def naive_write (sha : Sha_256) (data : List Nat) : Sha_256 :=
  data.foldl naive_push sha

/-- The input fed one byte per call of `sha_256_write`. -/
def bytewise_write (sha : Sha_256) (data : List Nat) : Sha_256 :=
  data.foldl (fun s b => sha_256_write s [b]) sha

/-! ## FIPS 180-4

SHA-256 as the standard defines it, on 32-bit words as numbers: these
definitions follow the standard, not the code. -/

namespace FIPS

/-- Circular right rotation of a 32-bit word by `n` places (§3.2): the low `n`
bits move to the top. -/
def ROTR (n x : Nat) : Nat := (x % 2 ^ n) * 2 ^ (32 - n) + x / 2 ^ n

/-- Right shift by `n` places (§3.2). -/
def SHR (n x : Nat) : Nat := x / 2 ^ n

/-- Bitwise complement of a 32-bit word. -/
def compl (x : Nat) : Nat := 2 ^ 32 - 1 - x

/-- Function `Ch(x, y, z) = (x ∧ y) ⊕ (¬x ∧ z)` (§4.1.2). -/
def Ch (x y z : Nat) : Nat := (x &&& y) ^^^ (compl x &&& z)

/-- Function `Maj(x, y, z) = (x ∧ y) ⊕ (x ∧ z) ⊕ (y ∧ z)` (§4.1.2). -/
def Maj (x y z : Nat) : Nat := (x &&& y) ^^^ (x &&& z) ^^^ (y &&& z)

/-- Function `Σ0(x) = ROTR 2 x ⊕ ROTR 13 x ⊕ ROTR 22 x`. -/
def Sigma0 (x : Nat) : Nat := ROTR 2 x ^^^ ROTR 13 x ^^^ ROTR 22 x

/-- Function `Σ1(x) = ROTR 6 x ⊕ ROTR 11 x ⊕ ROTR 25 x`. -/
def Sigma1 (x : Nat) : Nat := ROTR 6 x ^^^ ROTR 11 x ^^^ ROTR 25 x

/-- Function `σ0(x) = ROTR 7 x ⊕ ROTR 18 x ⊕ SHR 3 x`. -/
def sigma0 (x : Nat) : Nat := ROTR 7 x ^^^ ROTR 18 x ^^^ SHR 3 x

/-- Function `σ1(x) = ROTR 17 x ⊕ ROTR 19 x ⊕ SHR 10 x`. -/
def sigma1 (x : Nat) : Nat := ROTR 17 x ^^^ ROTR 19 x ^^^ SHR 10 x

/-- The word `M_t` of a 64-byte block: bytes `4t .. 4t+3`, big-endian. -/
def M (block : List Nat) (t : Nat) : Nat :=
  block.getD (4 * t) 0 * 2 ^ 24 + block.getD (4 * t + 1) 0 * 2 ^ 16 +
    block.getD (4 * t + 2) 0 * 2 ^ 8 + block.getD (4 * t + 3) 0

/-- The message schedule (§6.2.2 step 1): `W_t = M_t` for `t < 16`, and
`W_t = σ1(W_{t-2}) + W_{t-7} + σ0(W_{t-15}) + W_{t-16}` modulo `2^32` after. -/
def W (block : List Nat) (t : Nat) : Nat :=
  if t < 16 then M block t
  else (sigma1 (W block (t - 2)) + W block (t - 7) + sigma0 (W block (t - 15))
          + W block (t - 16)) % 2 ^ 32
termination_by t
decreasing_by all_goals omega

/-- One round (§6.2.2 step 3) with the constant `Kt` and the schedule word `Wt`. -/
def round (Kt Wt : Nat) (v : Vars) : Vars :=
  let T1 := (v.h + Sigma1 v.e + Ch v.e v.f v.g + Kt + Wt) % 2 ^ 32
  let T2 := (Sigma0 v.a + Maj v.a v.b v.c) % 2 ^ 32
  { a := (T1 + T2) % 2 ^ 32, b := v.a, c := v.b, d := v.c,
    e := (v.d + T1) % 2 ^ 32, f := v.e, g := v.f, h := v.g }

/-- The working variables after `t` rounds, from the hash value `H`
(§6.2.2 steps 2 and 3). -/
def rounds (H : List Nat) (block : List Nat) : Nat → Vars
  | 0 => { a := H.getD 0 0, b := H.getD 1 0, c := H.getD 2 0, d := H.getD 3 0,
           e := H.getD 4 0, f := H.getD 5 0, g := H.getD 6 0, h := H.getD 7 0 }
  | t + 1 => round (K.getD t 0) (W block t) (rounds H block t)

/-- The next hash value (§6.2.2 step 4): each word of `H` plus the working
variable after 64 rounds, modulo `2^32`. -/
def compress (H : List Nat) (block : List Nat) : List Nat :=
  let v := rounds H block 64
  [(H.getD 0 0 + v.a) % 2 ^ 32, (H.getD 1 0 + v.b) % 2 ^ 32,
   (H.getD 2 0 + v.c) % 2 ^ 32, (H.getD 3 0 + v.d) % 2 ^ 32,
   (H.getD 4 0 + v.e) % 2 ^ 32, (H.getD 5 0 + v.f) % 2 ^ 32,
   (H.getD 6 0 + v.g) % 2 ^ 32, (H.getD 7 0 + v.h) % 2 ^ 32]

/-- The initial hash value `H(0)` (§5.3.3). -/
def H0 : List Nat :=
  [0x6a09e667, 0xbb67ae85, 0x3c6ef372, 0xa54ff53a,
   0x510e527f, 0x9b05688c, 0x1f83d9ab, 0x5be0cd19]

/-- The big-endian bytes of a number on `n` bytes. -/
def be_bytes (n x : Nat) : List Nat :=
  (List.range n).map fun i => x / 256 ^ (n - 1 - i) % 256

/-- Padding (§5.1.1) on bytes: `0x80`, the least number of zero bytes that
brings the length to 56 modulo 64, then the bit length on 8 bytes. -/
def pad (msg : List Nat) : List Nat :=
  msg ++ [0x80] ++ List.replicate ((64 - (msg.length + 9) % 64) % 64) 0
    ++ be_bytes 8 (8 * msg.length)

/-- The hash value after the first `n` blocks of `msg`. -/
def hash_blocks : Nat → List Nat → List Nat → List Nat
  | 0, H, _ => H
  | n + 1, H, msg => hash_blocks n (compress H (msg.take 64)) (msg.drop 64)

/-- The SHA-256 digest of a message of bytes: the 8 words of the final hash
value, 4 big-endian bytes each. -/
def sha256 (msg : List Nat) : List Nat :=
  (hash_blocks ((pad msg).length / 64) H0 (pad msg)).flatMap (be_bytes 4)

end FIPS

/-! ## Auxiliary definitions for the proofs -/

/-- The new state words are a function of the old state words and the block. -/
def compress_words (st : List Nat) (data : List Nat) : List Nat :=
  (sha_256_transform { state := st, buffer := [], curlen := 0, length := 0 } data).state

/-- The state words after compressing the first `n` 64-byte blocks of a stream. -/
def absorb : Nat → List Nat → List Nat → List Nat
  | 0, st, _ => st
  | n + 1, st, p => absorb n (compress_words st p) (p.drop 64)

/-- The counter `length` after `n` blocks: `length += 64 * 8` in `uint64_t`, `n` times. -/
def bump (n : Nat) (len : Nat) : Nat := (fun l => (l + 512) % 2 ^ 64)^[n] len

/-- The bytes not yet compressed, followed by new input. -/
def pending (sha : Sha_256) (data : List Nat) : List Nat :=
  sha.buffer.take sha.curlen ++ data

/-- What a writer leaves, in terms of the stream of pending bytes. -/
structure WriteSpec (sha : Sha_256) (data : List Nat) (r : Sha_256) : Prop where
  state : r.state = absorb ((sha.curlen + data.length) / 64) sha.state (pending sha data)
  curlen : r.curlen = (sha.curlen + data.length) % 64
  length : r.length = bump ((sha.curlen + data.length) / 64) sha.length
  buffer : r.buffer.take r.curlen =
    (pending sha data).drop (64 * ((sha.curlen + data.length) / 64))
  buflen : r.buffer.length = 64

/-- Two states that the code cannot tell apart: the same state words, the same
`curlen`, the same `length` and the same first `curlen` bytes of `buffer`. -/
def SameStream (s t : Sha_256) : Prop :=
  s.state = t.state ∧ s.curlen = t.curlen ∧ s.length = t.length ∧
    s.buffer.take s.curlen = t.buffer.take t.curlen

/-- The four bytes that the last loop of `sha_256_close` stores for a word. -/
def word_bytes (t : Nat) : List Nat :=
  [((t >>> 24) &&& 0xff) % 2 ^ 8, ((t >>> 16) &&& 0xff) % 2 ^ 8,
   ((t >>> 8) &&& 0xff) % 2 ^ 8, (t &&& 0xff) % 2 ^ 8]

/-- The bytes that the last loop of `sha_256_close` stores for the words `0..n-1`. -/
def state_bytes (st : List Nat) (n : Nat) : List Nat :=
  (List.range n).flatMap fun i => word_bytes (st.getD i 0)

/-- The bytes that `sha_256_close` feeds to `sha_256_write`, from `curlen = c`
and `length = len`: `0x80`, the zero bytes, `finalcount`. -/
def close_bytes (c len : Nat) : List Nat :=
  [0x80] ++ List.replicate ((119 - c) % 64) 0 ++ finalcount len

/-- The state of `sha_256_close` before its last loop: after `0x80`, the zero
bytes and `finalcount` have gone through `sha_256_write`. -/
def close_written (sha : Sha_256) : Sha_256 :=
  sha_256_write
    ((fun s => sha_256_write s [0])^[(119 - sha.curlen) % 64] (sha_256_write sha [0x80]))
    (finalcount sha.length)

/-- The schedule so far: `m` has 64 entries, the first `k` are the words `W_t`
of FIPS 180-4. -/
def ScheduleUpTo (data : List Nat) (k : Nat) (m : List Nat) : Prop :=
  m.length = 64 ∧ ∀ i, i < k → m.getD i 0 = FIPS.W data i

/-! ## The calls of `sha_256_transform`

The code with a record of the 64-byte blocks that it passes to
`sha_256_transform`, in order: `in[0..64)` on the fast path of
`sha_256_write`, `sha->buffer[0..64)` on the buffered branch. -/

/-- The block that one iteration of the loop of `sha_256_write` passes to
`sha_256_transform`, if it calls it. -/
def write_step_calls (sha : Sha_256) (data : List Nat) : List (List Nat) :=
  if sha.curlen = 0 ∧ data.length ≥ 64 then [data.take 64]
  else
    let n := copy_count sha.curlen data.length
    let sha := { sha with buffer := memcpy sha.buffer sha.curlen data n }
    let sha := { sha with curlen := (sha.curlen + n) % 2 ^ 32 }
    if sha.curlen = 64 then [sha.buffer.take 64] else []

/-- The blocks that the loop of `sha_256_write` passes to `sha_256_transform`. -/
def write_loop_calls : Nat → Sha_256 → List Nat → List (List Nat)
  | 0, _, _ => []
  | fuel + 1, sha, data =>
    if data.length > 0 then
      write_step_calls sha data
        ++ write_loop_calls fuel (sha_256_write_step sha data).1 (sha_256_write_step sha data).2
    else []

/-- The blocks that `sha_256_write(sha, data, length)` passes to
`sha_256_transform`. -/
def write_calls (sha : Sha_256) (data : List Nat) : List (List Nat) :=
  write_loop_calls (data.length + 1) sha data

/-- The blocks that the padding loop of `sha_256_close` passes to
`sha_256_transform`. -/
def close_pad_calls : Nat → Sha_256 → List (List Nat)
  | 0, _ => []
  | fuel + 1, sha =>
    if sha.curlen ≠ 56 then
      write_calls sha [0] ++ close_pad_calls fuel (sha_256_write sha [0])
    else []

/-- The blocks that `sha_256_close(sha)` passes to `sha_256_transform`. -/
def close_calls (sha : Sha_256) : List (List Nat) :=
  let fc := finalcount sha.length
  let calls := write_calls sha [0x80]
  let sha := sha_256_write sha [0x80]
  let calls := calls ++ close_pad_calls 64 sha
  match sha_256_close_pad 64 sha with
  | none => calls
  | some sha => calls ++ write_calls sha fc

/-- The blocks that `sha_256_init`, `sha_256_write` of `data` and
`sha_256_close` pass to `sha_256_transform`. -/
def run_calls (sha0 : Sha_256) (data : List Nat) : List (List Nat) :=
  write_calls (sha_256_init sha0) data
    ++ close_calls (sha_256_write (sha_256_init sha0) data)

/-- What a writer passes to `sha_256_transform`, in terms of the stream of
pending bytes: its whole 64-byte blocks, in order. -/
structure CallsSpec (sha : Sha_256) (data : List Nat) (calls : List (List Nat)) : Prop where
  flatten : calls.flatten = (pending sha data).take (64 * ((sha.curlen + data.length) / 64))
  count : calls.length = (sha.curlen + data.length) / 64
  block : ∀ b ∈ calls, b.length = 64

/-- The bytes that a run feeds to `sha_256_write`: the input, `0x80`, the zero
bytes, and `finalcount` of the bits of the whole blocks of the input. -/
def run_stream (data : List Nat) : List Nat :=
  data ++ close_bytes (data.length % 64) (bump (data.length / 64) 0)

/-! ## The primes behind the constants -/

/-- Trial division: `n ≥ 2` and no `m` with `2 ≤ m < n` divides `n`. -/
def is_prime (n : Nat) : Bool :=
  decide (2 ≤ n) && (List.range n).all fun m => decide (m < 2) || decide (n % m ≠ 0)

/-- The primes below `n`, in increasing order. -/
def primes_below (n : Nat) : List Nat := (List.range n).filter is_prime

/-- The successive 64-byte slices of an input. -/
def blocks_of (data : List Nat) : List (List Nat) :=
  (List.range (data.length / 64)).map fun i => (data.drop (64 * i)).take 64

/-! # Proofs -/

/-! ## Frame of `sha_256_transform` -/

theorem transform_buffer (sha : Sha_256) (data : List Nat) :
    (sha_256_transform sha data).buffer = sha.buffer := rfl

theorem transform_curlen (sha : Sha_256) (data : List Nat) :
    (sha_256_transform sha data).curlen = sha.curlen := rfl

theorem transform_length (sha : Sha_256) (data : List Nat) :
    (sha_256_transform sha data).length = sha.length := rfl

theorem transform_state (sha : Sha_256) (data : List Nat) :
    (sha_256_transform sha data).state = compress_words sha.state data := rfl

theorem transform_eq (sha : Sha_256) (data : List Nat) :
    sha_256_transform sha data = { sha with state := compress_words sha.state data } := rfl

/-! ## Accounting of `sha_256_write` -/

theorem copy_count_eq (c len : Nat) (hc : c ≤ 63) : copy_count c len = min (64 - c) len := by
  unfold copy_count
  have h : (64 + 2 ^ 32 - c) % 2 ^ 32 = 64 - c := by omega
  simp only [h]
  split <;> omega

theorem write_loop_nil (fuel : Nat) (sha : Sha_256) : sha_256_write_loop fuel sha [] = sha := by
  cases fuel <;> simp [sha_256_write_loop]

theorem write_loop_succ (fuel : Nat) (sha : Sha_256) (data : List Nat) (h : data ≠ []) :
    sha_256_write_loop (fuel + 1) sha data =
      sha_256_write_loop fuel (sha_256_write_step sha data).1 (sha_256_write_step sha data).2 := by
  have : data.length > 0 := List.length_pos.mpr h
  simp [sha_256_write_loop, this]

/-- The fast path of one iteration. -/
theorem write_step_fast (sha : Sha_256) (data : List Nat) (h0 : sha.curlen = 0)
    (h64 : 64 ≤ data.length) :
    sha_256_write_step sha data =
      ({ sha with state := compress_words sha.state data,
                  length := (sha.length + 512) % 2 ^ 64 }, data.drop 64) := by
  simp [sha_256_write_step, h0, h64, transform_eq]

/-- The buffered branch of one iteration that fills the buffer. -/
theorem write_step_full (sha : Sha_256) (data : List Nat) (hc : sha.curlen ≤ 63)
    (hfast : ¬ (sha.curlen = 0 ∧ 64 ≤ data.length)) (hn : 64 - sha.curlen ≤ data.length) :
    sha_256_write_step sha data =
      ({ sha with state := compress_words sha.state
                    (memcpy sha.buffer sha.curlen data (64 - sha.curlen)),
                  buffer := memcpy sha.buffer sha.curlen data (64 - sha.curlen),
                  curlen := 0,
                  length := (sha.length + 512) % 2 ^ 64 }, data.drop (64 - sha.curlen)) := by
  have hcc : copy_count sha.curlen data.length = 64 - sha.curlen := by
    rw [copy_count_eq _ _ hc]; omega
  have h1 : (sha.curlen + (64 - sha.curlen)) % 4294967296 = 64 := by omega
  simp [sha_256_write_step, hfast, hcc, h1, transform_eq]

/-- The buffered branch of one iteration that leaves the buffer incomplete:
it takes the whole remaining input. -/
theorem write_step_part (sha : Sha_256) (data : List Nat) (hc : sha.curlen ≤ 63)
    (hn : data.length < 64 - sha.curlen) :
    sha_256_write_step sha data =
      ({ sha with buffer := memcpy sha.buffer sha.curlen data data.length,
                  curlen := sha.curlen + data.length }, []) := by
  have hcc : copy_count sha.curlen data.length = data.length := by
    rw [copy_count_eq _ _ hc]; omega
  have hfast : ¬ (sha.curlen = 0 ∧ 64 ≤ data.length) := by omega
  have h1 : (sha.curlen + data.length) % 4294967296 = sha.curlen + data.length := by omega
  have h2 : ¬ (sha.curlen + data.length = 64) := by omega
  simp [sha_256_write_step, hfast, hcc, h1, h2]

/-! ## The block transform reads 64 bytes -/

theorem load_step_congr (X Y : List Nat) (h : ∀ k, k < 64 → X.getD k 0 = Y.getD k 0)
    (m : List Nat) (i : Nat) (hi : i < 16) : load_step X m i = load_step Y m i := by
  unfold load_step
  rw [h (4 * i) (by omega), h (4 * i + 1) (by omega), h (4 * i + 2) (by omega),
    h (4 * i + 3) (by omega)]

theorem message_schedule_congr (X Y : List Nat) (h : ∀ k, k < 64 → X.getD k 0 = Y.getD k 0) :
    message_schedule X = message_schedule Y := by
  have hl : ∀ m0 : List Nat, (List.range 16).foldl (load_step X) m0
      = (List.range 16).foldl (load_step Y) m0 := fun m0 =>
    List.foldl_ext _ _ m0 fun m i hi => load_step_congr X Y h m i (List.mem_range.mp hi)
  unfold message_schedule
  rw [hl]

theorem compress_words_congr (st X Y : List Nat) (h : ∀ k, k < 64 → X.getD k 0 = Y.getD k 0) :
    compress_words st X = compress_words st Y := by
  unfold compress_words sha_256_transform
  rw [message_schedule_congr X Y h]

/-- Only the first 64 bytes behind the pointer are read. -/
theorem compress_words_append (st X Y Z : List Nat) (hX : X.length = 64) :
    compress_words st (X ++ Y) = compress_words st (X ++ Z) := by
  apply compress_words_congr
  intro k hk
  rw [List.getD_append _ _ _ _ (by omega), List.getD_append _ _ _ _ (by omega)]

/-! ## `sha_256_write` in terms of the stream of pending bytes -/

theorem absorb_succ (n : Nat) (st p : List Nat) :
    absorb (n + 1) st p = absorb n (compress_words st p) (p.drop 64) := rfl

theorem bump_succ (n len : Nat) : bump (n + 1) len = bump n ((len + 512) % 2 ^ 64) := rfl

theorem bump_eq (n len : Nat) (h : len < 2 ^ 64) : bump n len = (len + 512 * n) % 2 ^ 64 := by
  induction n generalizing len with
  | zero => simp [bump]; omega
  | succ n ih =>
    rw [bump_succ, ih _ (Nat.mod_lt _ (by norm_num))]
    omega

theorem memcpy_length (B D : List Nat) (c n : Nat) (h1 : c + n ≤ B.length) (h2 : n ≤ D.length) :
    (memcpy B c D n).length = B.length := by
  simp [memcpy]; omega

theorem writeSpec_nil (sha : Sha_256) (hc : sha.curlen ≤ 63) (hb : sha.buffer.length = 64) :
    WriteSpec sha [] sha := by
  have hq : (sha.curlen + ([] : List Nat).length) / 64 = 0 := by simp; omega
  constructor
  · rw [hq]; rfl
  · simp; omega
  · rw [hq]; rfl
  · rw [hq]; simp [pending]
  · exact hb

theorem writeSpec_fast (sha : Sha_256) (data : List Nat) (r : Sha_256)
    (h0 : sha.curlen = 0) (h64 : 64 ≤ data.length)
    (h : WriteSpec { sha with state := compress_words sha.state data,
                              length := (sha.length + 512) % 2 ^ 64 } (data.drop 64) r) :
    WriteSpec sha data r := by
  obtain ⟨h1, h2, h3, h4, h5⟩ := h
  simp only [h0, List.length_drop, pending, List.take_zero, List.nil_append, Nat.zero_add] at h1 h2 h3 h4
  have hq : (sha.curlen + data.length) / 64 = (data.length - 64) / 64 + 1 := by omega
  constructor
  · rw [hq, absorb_succ, h1]; simp [pending, h0]
  · rw [h2]; omega
  · rw [hq, bump_succ, h3]
  · rw [h4, hq]; simp [pending, h0]; congr 1; omega
  · exact h5

theorem writeSpec_full (sha : Sha_256) (data : List Nat) (r : Sha_256)
    (hc : sha.curlen ≤ 63) (hb : sha.buffer.length = 64) (hn : 64 - sha.curlen ≤ data.length)
    (h : WriteSpec { sha with state := compress_words sha.state
                                (memcpy sha.buffer sha.curlen data (64 - sha.curlen)),
                              buffer := memcpy sha.buffer sha.curlen data (64 - sha.curlen),
                              curlen := 0,
                              length := (sha.length + 512) % 2 ^ 64 }
          (data.drop (64 - sha.curlen)) r) :
    WriteSpec sha data r := by
  obtain ⟨h1, h2, h3, h4, h5⟩ := h
  simp only [List.length_drop, pending, List.take_zero, List.nil_append, Nat.zero_add]
    at h1 h2 h3 h4
  have hq : (sha.curlen + data.length) / 64 = (data.length - (64 - sha.curlen)) / 64 + 1 := by
    omega
  have hX : (sha.buffer.take sha.curlen ++ data.take (64 - sha.curlen)).length = 64 := by
    simp; omega
  have hp : pending sha data
      = (sha.buffer.take sha.curlen ++ data.take (64 - sha.curlen))
          ++ data.drop (64 - sha.curlen) := by
    simp [pending]
  have hcw : compress_words sha.state (pending sha data)
      = compress_words sha.state (memcpy sha.buffer sha.curlen data (64 - sha.curlen)) := by
    rw [hp]; unfold memcpy
    exact compress_words_append _ _ _ _ hX
  have hd : (pending sha data).drop 64 = data.drop (64 - sha.curlen) := by
    rw [hp]; exact List.drop_left' hX
  constructor
  · rw [hq, absorb_succ, hcw, hd, h1]
  · rw [h2]; omega
  · rw [hq, bump_succ, h3]
  · rw [h4, hq, Nat.mul_add, Nat.mul_one, Nat.add_comm, ← List.drop_drop, hd]
  · exact h5

theorem writeSpec_part (sha : Sha_256) (data : List Nat)
    (hc : sha.curlen ≤ 63) (hb : sha.buffer.length = 64) (hn : data.length < 64 - sha.curlen) :
    WriteSpec sha data { sha with buffer := memcpy sha.buffer sha.curlen data data.length,
                                  curlen := sha.curlen + data.length } := by
  have hq : (sha.curlen + data.length) / 64 = 0 := by omega
  constructor
  · rw [hq]; rfl
  · show sha.curlen + data.length = _; omega
  · rw [hq]; rfl
  · rw [hq]
    show (memcpy sha.buffer sha.curlen data data.length).take (sha.curlen + data.length) = _
    have hl : (sha.buffer.take sha.curlen ++ data).length = sha.curlen + data.length := by
      simp; omega
    simp only [memcpy, List.take_length, pending, Nat.mul_zero, List.drop_zero]
    exact List.take_left' hl
  · show (memcpy sha.buffer sha.curlen data data.length).length = 64
    rw [memcpy_length _ _ _ _ (by omega) (le_refl _), hb]

/-- The loop of `sha_256_write`, given at least as many iterations as input
bytes, leaves the state that the stream of pending bytes determines. -/
theorem write_loop_spec : ∀ (fuel : Nat) (sha : Sha_256) (data : List Nat),
    data.length ≤ fuel → sha.curlen ≤ 63 → sha.buffer.length = 64 →
    WriteSpec sha data (sha_256_write_loop fuel sha data) := by
  intro fuel
  induction fuel with
  | zero =>
    intro sha data hf hc hb
    have : data = [] := List.length_eq_zero.mp (by omega)
    subst this
    rw [write_loop_nil]; exact writeSpec_nil sha hc hb
  | succ fuel ih =>
    intro sha data hf hc hb
    by_cases hd : data = []
    · subst hd; rw [write_loop_nil]; exact writeSpec_nil sha hc hb
    · have hpos : 0 < data.length := List.length_pos.mpr hd
      rw [write_loop_succ _ _ _ hd]
      by_cases hfast : sha.curlen = 0 ∧ 64 ≤ data.length
      · rw [write_step_fast sha data hfast.1 hfast.2]
        apply writeSpec_fast sha data _ hfast.1 hfast.2
        apply ih
        · simp; omega
        · show sha.curlen ≤ 63; exact hc
        · exact hb
      · by_cases hn : 64 - sha.curlen ≤ data.length
        · rw [write_step_full sha data hc hfast hn]
          apply writeSpec_full sha data _ hc hb hn
          apply ih
          · simp; omega
          · show 0 ≤ 63; omega
          · show (memcpy sha.buffer sha.curlen data (64 - sha.curlen)).length = 64
            rw [memcpy_length _ _ _ _ (by omega) hn, hb]
        · rw [write_step_part sha data hc (by omega), write_loop_nil]
          exact writeSpec_part sha data hc hb (by omega)

theorem write_spec (sha : Sha_256) (data : List Nat) (hc : sha.curlen ≤ 63)
    (hb : sha.buffer.length = 64) : WriteSpec sha data (sha_256_write sha data) :=
  write_loop_spec _ sha data (Nat.le_succ _) hc hb

/-- From a state with `curlen ≤ 63` an iteration consumes at least one byte and
leaves `curlen ≤ 63`. -/
theorem write_step_progress (sha : Sha_256) (data : List Nat) (hc : sha.curlen ≤ 63)
    (hd : data ≠ []) :
    (sha_256_write_step sha data).2.length < data.length ∧
      (sha_256_write_step sha data).1.curlen ≤ 63 := by
  have hpos : 0 < data.length := List.length_pos.mpr hd
  by_cases hfast : sha.curlen = 0 ∧ 64 ≤ data.length
  · rw [write_step_fast sha data hfast.1 hfast.2]
    refine ⟨?_, hc⟩
    simp; omega
  · by_cases hn : 64 - sha.curlen ≤ data.length
    · rw [write_step_full sha data hc hfast hn]
      refine ⟨?_, Nat.zero_le _⟩
      simp; omega
    · rw [write_step_part sha data hc (by omega)]
      refine ⟨hpos, ?_⟩
      show sha.curlen + data.length ≤ 63; omega

theorem write_loop_fuel_irrel : ∀ (fuel1 fuel2 : Nat) (sha : Sha_256) (data : List Nat),
    data.length ≤ fuel1 → data.length ≤ fuel2 → sha.curlen ≤ 63 →
    sha_256_write_loop fuel1 sha data = sha_256_write_loop fuel2 sha data := by
  intro fuel1
  induction fuel1 with
  | zero =>
    intro fuel2 sha data h1 _ _
    have : data = [] := List.length_eq_zero.mp (by omega)
    subst this
    rw [write_loop_nil, write_loop_nil]
  | succ fuel1 ih =>
    intro fuel2 sha data h1 h2 hc
    by_cases hd : data = []
    · subst hd; rw [write_loop_nil, write_loop_nil]
    · have hpos : 0 < data.length := List.length_pos.mpr hd
      obtain ⟨f2, rfl⟩ : ∃ f2, fuel2 = f2 + 1 := ⟨fuel2 - 1, by omega⟩
      have hp := write_step_progress sha data hc hd
      rw [write_loop_succ _ _ _ hd, write_loop_succ _ _ _ hd]
      exact ih f2 _ _ (by omega) (by omega) hp.2

/-- More iterations than input bytes change nothing: the loop of
`sha_256_write` has ended by itself. -/
theorem sha_256_write_loop_fuel (fuel : Nat) (sha : Sha_256) (data : List Nat)
    (hf : data.length ≤ fuel) (hc : sha.curlen ≤ 63) :
    sha_256_write_loop fuel sha data = sha_256_write sha data :=
  write_loop_fuel_irrel _ _ sha data hf (Nat.le_succ _) hc

/-- The `while` loop of `sha_256_write` as an equation. -/
theorem sha_256_write_unfold (sha : Sha_256) (data : List Nat) (hc : sha.curlen ≤ 63)
    (hd : data ≠ []) :
    sha_256_write sha data =
      sha_256_write (sha_256_write_step sha data).1 (sha_256_write_step sha data).2 := by
  have hp := write_step_progress sha data hc hd
  unfold sha_256_write
  rw [write_loop_succ _ _ _ hd]
  exact write_loop_fuel_irrel _ _ _ _ (by omega) (Nat.le_succ _) hp.2

/-! ## Accounting of `curlen` and `length`, whatever the buffer holds -/

theorem write_loop_count : ∀ (fuel : Nat) (sha : Sha_256) (data : List Nat),
    data.length ≤ fuel → sha.curlen ≤ 63 →
    (sha_256_write_loop fuel sha data).curlen = (sha.curlen + data.length) % 64 ∧
    (sha_256_write_loop fuel sha data).length
      = bump ((sha.curlen + data.length) / 64) sha.length := by
  intro fuel
  induction fuel with
  | zero =>
    intro sha data hf hc
    have : data = [] := List.length_eq_zero.mp (by omega)
    subst this
    have hq : (sha.curlen + ([] : List Nat).length) / 64 = 0 := by simp; omega
    rw [write_loop_nil, hq]
    exact ⟨by simp; omega, rfl⟩
  | succ fuel ih =>
    intro sha data hf hc
    by_cases hd : data = []
    · subst hd
      have hq : (sha.curlen + ([] : List Nat).length) / 64 = 0 := by simp; omega
      rw [write_loop_nil, hq]
      exact ⟨by simp; omega, rfl⟩
    · have hpos : 0 < data.length := List.length_pos.mpr hd
      rw [write_loop_succ _ _ _ hd]
      by_cases hfast : sha.curlen = 0 ∧ 64 ≤ data.length
      · rw [write_step_fast sha data hfast.1 hfast.2]
        have h := ih { sha with state := compress_words sha.state data,
                                length := (sha.length + 512) % 2 ^ 64 } (data.drop 64)
          (by simp; omega) hc
        simp only [List.length_drop] at h
        have hq : (sha.curlen + data.length) / 64
            = (sha.curlen + (data.length - 64)) / 64 + 1 := by omega
        rw [h.1, h.2, hq, bump_succ]
        exact ⟨by omega, rfl⟩
      · by_cases hn : 64 - sha.curlen ≤ data.length
        · rw [write_step_full sha data hc hfast hn]
          have h := ih { sha with state := compress_words sha.state
                                    (memcpy sha.buffer sha.curlen data (64 - sha.curlen)),
                                  buffer := memcpy sha.buffer sha.curlen data (64 - sha.curlen),
                                  curlen := 0,
                                  length := (sha.length + 512) % 2 ^ 64 }
            (data.drop (64 - sha.curlen)) (by simp; omega) (Nat.zero_le _)
          simp only [List.length_drop] at h
          have hq : (sha.curlen + data.length) / 64
              = (0 + (data.length - (64 - sha.curlen))) / 64 + 1 := by omega
          rw [h.1, h.2, hq, bump_succ]
          exact ⟨by omega, rfl⟩
        · rw [write_step_part sha data hc (by omega), write_loop_nil]
          have hq : (sha.curlen + data.length) / 64 = 0 := by omega
          rw [hq]
          exact ⟨by show sha.curlen + data.length = _; omega, rfl⟩

theorem write_curlen (sha : Sha_256) (data : List Nat) (hc : sha.curlen ≤ 63) :
    (sha_256_write sha data).curlen = (sha.curlen + data.length) % 64 :=
  (write_loop_count _ sha data (Nat.le_succ _) hc).1

theorem write_length (sha : Sha_256) (data : List Nat) (hc : sha.curlen ≤ 63) :
    (sha_256_write sha data).length = bump ((sha.curlen + data.length) / 64) sha.length :=
  (write_loop_count _ sha data (Nat.le_succ _) hc).2

theorem bump_add (a b len : Nat) : bump (a + b) len = bump b (bump a len) := by
  unfold bump
  rw [Nat.add_comm, Function.iterate_add_apply]

/-! ## Composition of writers -/

theorem absorb_add (a b : Nat) (st p : List Nat) :
    absorb (a + b) st p = absorb b (absorb a st p) (p.drop (64 * a)) := by
  induction a generalizing st p with
  | zero => simp [absorb]
  | succ a ih =>
    rw [Nat.add_right_comm, absorb_succ, absorb_succ, ih, List.drop_drop]
    congr 2; omega

theorem absorb_append_left (a : Nat) (st X Y : List Nat) (h : 64 * a ≤ X.length) :
    absorb a st (X ++ Y) = absorb a st X := by
  induction a generalizing st X with
  | zero => rfl
  | succ a ih =>
    have hc : compress_words st (X ++ Y) = compress_words st X := by
      apply compress_words_congr
      intro k hk
      exact List.getD_append _ _ _ _ (by omega)
    rw [absorb_succ, absorb_succ, hc, List.drop_append_of_le_length (by omega)]
    exact ih _ _ (by simp; omega)

theorem pending_length (sha : Sha_256) (data : List Nat) (hc : sha.curlen ≤ 63)
    (hb : sha.buffer.length = 64) : (pending sha data).length = sha.curlen + data.length := by
  simp [pending]; omega

/-- Writers compose: the stream of the second starts where the first stopped. -/
theorem writeSpec_trans (sha r1 r2 : Sha_256) (D1 D2 : List Nat) (hc : sha.curlen ≤ 63)
    (hb : sha.buffer.length = 64) (h1 : WriteSpec sha D1 r1) (h2 : WriteSpec r1 D2 r2) :
    WriteSpec sha (D1 ++ D2) r2 := by
  obtain ⟨a1, a2, a3, a4, _⟩ := h1
  obtain ⟨b1, b2, b3, b4, b5⟩ := h2
  have hlen := pending_length sha D1 hc hb
  have hq : (sha.curlen + (D1 ++ D2).length) / 64
      = (sha.curlen + D1.length) / 64 + (r1.curlen + D2.length) / 64 := by
    rw [a2, List.length_append]; omega
  have hp : pending sha (D1 ++ D2) = pending sha D1 ++ D2 := by simp [pending]
  have hp2 : pending r1 D2
      = (pending sha (D1 ++ D2)).drop (64 * ((sha.curlen + D1.length) / 64)) := by
    rw [hp, List.drop_append_of_le_length (by omega), ← a4]; rfl
  constructor
  · rw [b1, hq, absorb_add, hp2, a1]
    congr 1
    rw [hp, absorb_append_left _ _ _ _ (by omega)]
  · rw [b2, a2, List.length_append]; omega
  · rw [b3, hq, bump_add, a3]
  · rw [b4, hp2, List.drop_drop, hq]
    congr 1; omega
  · exact b5

/-- What a writer leaves depends on the state only through what `SameStream` keeps. -/
theorem writeSpec_congr (s t r : Sha_256) (D : List Nat) (hst : SameStream s t)
    (h : WriteSpec s D r) : WriteSpec t D r := by
  obtain ⟨e1, e2, e3, e4⟩ := hst
  obtain ⟨a1, a2, a3, a4, a5⟩ := h
  have hp : pending s D = pending t D := by simp [pending, e4]
  constructor
  · rw [a1, e1, e2, hp]
  · rw [a2, e2]
  · rw [a3, e2, e3]
  · rw [a4, e2, hp]
  · exact a5

/-- Two results of the same writer cannot be told apart. -/
theorem writeSpec_unique (s r r' : Sha_256) (D : List Nat) (h : WriteSpec s D r)
    (h' : WriteSpec s D r') : SameStream r r' := by
  obtain ⟨a1, a2, a3, a4, _⟩ := h
  obtain ⟨b1, b2, b3, b4, _⟩ := h'
  exact ⟨by rw [a1, b1], by rw [a2, b2], by rw [a3, b3], by rw [a4, b4]⟩

theorem writeSpec_curlen_le (s r : Sha_256) (D : List Nat) (h : WriteSpec s D r) :
    r.curlen ≤ 63 := by
  rw [h.curlen]; omega

/-- A sequence of writers, each of which leaves what its input determines,
leaves what the concatenated input determines. -/
theorem writeSpec_foldl {α : Type} (f : Sha_256 → α → Sha_256) (g : α → List Nat)
    (hf : ∀ s a, s.curlen ≤ 63 → s.buffer.length = 64 → WriteSpec s (g a) (f s a)) :
    ∀ (l : List α) (sha : Sha_256), sha.curlen ≤ 63 → sha.buffer.length = 64 →
      WriteSpec sha (l.flatMap g) (l.foldl f sha) := by
  intro l
  induction l with
  | nil => intro sha hc hb; exact writeSpec_nil sha hc hb
  | cons a l ih =>
    intro sha hc hb
    have h1 := hf sha a hc hb
    have h2 := ih (f sha a) (writeSpec_curlen_le _ _ _ h1) h1.buflen
    simpa using writeSpec_trans sha _ _ _ _ hc hb h1 h2

/-! ## The padding loop of `sha_256_close` -/

theorem iter_zero_curlen (s : Sha_256) (hc : s.curlen ≤ 63) (j : Nat) :
    ((fun s => sha_256_write s [0])^[j] s).curlen = (s.curlen + j) % 64 := by
  induction j with
  | zero => simp; omega
  | succ j ih =>
    rw [Function.iterate_succ_apply', write_curlen _ _ (by rw [ih]; omega), ih]
    simp; omega

theorem close_pad_iter : ∀ (fuel : Nat) (s : Sha_256), s.curlen ≤ 63 →
    (120 - s.curlen) % 64 < fuel →
    sha_256_close_pad fuel s
      = some ((fun s => sha_256_write s [0])^[(120 - s.curlen) % 64] s) := by
  intro fuel
  induction fuel with
  | zero => intro s _ h; omega
  | succ fuel ih =>
    intro s hc hf
    by_cases h56 : s.curlen = 56
    · have hk : (120 - s.curlen) % 64 = 0 := by omega
      simp [sha_256_close_pad, h56]
    · have h1 : (sha_256_write s [0]).curlen = (s.curlen + 1) % 64 := by
        rw [write_curlen _ _ hc]; rfl
      have hk : (120 - s.curlen) % 64 = (120 - (sha_256_write s [0]).curlen) % 64 + 1 := by
        rw [h1]; omega
      have := ih (sha_256_write s [0]) (by rw [h1]; omega) (by omega)
      simp only [sha_256_close_pad, ne_eq, h56, not_false_eq_true, if_true]
      rw [this, hk, Function.iterate_succ_apply]

/-! ## The last loop of `sha_256_close` -/

theorem set4 (a b c d : Nat) : ∀ (k : Nat) (l : List Nat), k + 4 ≤ l.length →
    (((l.set k a).set (k + 1) b).set (k + 2) c).set (k + 3) d
      = l.take k ++ [a, b, c, d] ++ l.drop (k + 4) := by
  intro k
  induction k with
  | zero =>
    intro l h
    match l, h with
    | _ :: _ :: _ :: _ :: _, _ => simp
  | succ k ih =>
    intro l h
    match l, h with
    | x :: l, h =>
      have := ih l (by simpa using h)
      have e2 : k + 1 + 2 = (k + 2) + 1 := by omega
      have e3 : k + 1 + 3 = (k + 3) + 1 := by omega
      have e4 : k + 1 + 4 = (k + 4) + 1 := by omega
      rw [e2, e3, e4]
      simp only [List.set_cons_succ, List.take_succ_cons, List.drop_succ_cons, List.cons_append]
      rw [this]

theorem store_step_buffer (sha : Sha_256) (i : Nat) (h : i * 4 + 4 ≤ sha.buffer.length) :
    store_step sha i = { sha with buffer := (sha.buffer.take (i * 4)
      ++ word_bytes (sha.state.getD i 0) ++ sha.buffer.drop (i * 4 + 4)) } := by
  unfold store_step word_bytes
  simp only
  rw [set4 _ _ _ _ _ _ h]

theorem state_bytes_length (st : List Nat) (n : Nat) : (state_bytes st n).length = 4 * n := by
  induction n with
  | zero => rfl
  | succ n ih =>
    unfold state_bytes at ih ⊢
    rw [List.range_succ, List.flatMap_append, List.length_append, ih]
    simp [word_bytes]
    omega

theorem store_fold (sha : Sha_256) (n : Nat) (h : 4 * n ≤ sha.buffer.length) :
    (List.range n).foldl store_step sha
      = { sha with buffer := state_bytes sha.state n ++ sha.buffer.drop (4 * n) } := by
  induction n with
  | zero => simp [state_bytes]
  | succ n ih =>
    have hl := state_bytes_length sha.state n
    rw [List.range_succ, List.foldl_append, ih (by omega)]
    simp only [List.foldl_cons, List.foldl_nil]
    rw [store_step_buffer _ _ (by simp; omega)]
    simp only
    have e1 : (state_bytes sha.state n ++ sha.buffer.drop (4 * n)).take (n * 4)
        = state_bytes sha.state n := List.take_left' (by omega)
    have e2 : (state_bytes sha.state n ++ sha.buffer.drop (4 * n)).drop (n * 4 + 4)
        = sha.buffer.drop (4 * (n + 1)) := by
      rw [List.drop_append_eq_append_drop, List.drop_of_length_le (by omega), hl, List.drop_drop]
      simp only [List.nil_append]
      congr 1; omega
    rw [e1, e2]
    congr 1
    unfold state_bytes
    rw [List.range_succ, List.flatMap_append]
    simp

/-! ## `sha_256_close` in closed form -/

theorem finalcount_length (len : Nat) : (finalcount len).length = 8 := by
  simp [finalcount]

/-- From a state with `curlen ≤ 63` the padding loop ends by itself, and
`sha_256_close` returns. -/
theorem close_eq (sha : Sha_256) (hc : sha.curlen ≤ 63) :
    sha_256_close sha = some ((List.range 8).foldl store_step (close_written sha)) := by
  have h1 : (sha_256_write sha [0x80]).curlen = (sha.curlen + 1) % 64 := by
    rw [write_curlen _ _ hc]; rfl
  have hk : (120 - (sha_256_write sha [0x80]).curlen) % 64 = (119 - sha.curlen) % 64 := by
    rw [h1]; omega
  have hp := close_pad_iter 64 (sha_256_write sha [0x80]) (by rw [h1]; omega) (by omega)
  rw [hk] at hp
  unfold sha_256_close close_written
  simp only [hp]

theorem iter_zero_spec (s : Sha_256) (hc : s.curlen ≤ 63) (hb : s.buffer.length = 64)
    (k : Nat) : WriteSpec s (List.replicate k 0) ((fun s => sha_256_write s [0])^[k] s) := by
  induction k with
  | zero => exact writeSpec_nil s hc hb
  | succ k ih =>
    rw [Function.iterate_succ_apply', List.replicate_succ']
    exact writeSpec_trans s _ _ _ _ hc hb ih
      (write_spec _ _ (writeSpec_curlen_le _ _ _ ih) ih.buflen)

theorem close_written_spec (sha : Sha_256) (hc : sha.curlen ≤ 63)
    (hb : sha.buffer.length = 64) :
    WriteSpec sha (close_bytes sha.curlen sha.length) (close_written sha) := by
  have h1 := write_spec sha [0x80] hc hb
  have h2 := iter_zero_spec _ (writeSpec_curlen_le _ _ _ h1) h1.buflen ((119 - sha.curlen) % 64)
  have h12 := writeSpec_trans sha _ _ _ _ hc hb h1 h2
  have h3 := write_spec _ (finalcount sha.length) (writeSpec_curlen_le _ _ _ h12) h12.buflen
  exact writeSpec_trans sha _ _ _ _ hc hb h12 h3

theorem close_bytes_length (c len : Nat) :
    (close_bytes c len).length = 9 + (119 - c) % 64 := by
  simp [close_bytes, finalcount_length]; omega

theorem close_written_curlen (sha : Sha_256) (hc : sha.curlen ≤ 63) :
    (close_written sha).curlen = 0 := by
  have h1 : (sha_256_write sha [0x80]).curlen = (sha.curlen + 1) % 64 := by
    rw [write_curlen _ _ hc]; rfl
  have h2 := iter_zero_curlen (sha_256_write sha [0x80]) (by rw [h1]; omega)
    ((119 - sha.curlen) % 64)
  unfold close_written
  rw [write_curlen _ _ (by rw [h2]; omega), h2, h1, finalcount_length]
  omega

/-- The result of `sha_256_close`: the state words that the padded stream
determines, serialised at the start of the buffer. -/
theorem close_spec (sha : Sha_256) (hc : sha.curlen ≤ 63) (hb : sha.buffer.length = 64) :
    sha_256_close sha = some { close_written sha with
      buffer := (state_bytes (close_written sha).state 8
        ++ (close_written sha).buffer.drop 32) } := by
  rw [close_eq sha hc, store_fold _ 8 (by rw [(close_written_spec sha hc hb).buflen]; omega)]

theorem close_digest (sha : Sha_256) (hc : sha.curlen ≤ 63) (hb : sha.buffer.length = 64) :
    (sha_256_close sha).map digest = some (state_bytes (close_written sha).state 8) := by
  rw [close_spec sha hc hb]
  simp only [Option.map_some', digest]
  rw [List.take_left' (state_bytes_length _ 8)]

/-! ## Consequences for whole runs -/

theorem sameStream_refl (s : Sha_256) : SameStream s s := ⟨rfl, rfl, rfl, rfl⟩

theorem close_written_congr (s t : Sha_256) (hst : SameStream s t) (hc : s.curlen ≤ 63)
    (hs : s.buffer.length = 64) (ht : t.buffer.length = 64) :
    SameStream (close_written s) (close_written t) := by
  have h1 := writeSpec_congr s t _ _ hst (close_written_spec s hc hs)
  have h2 := close_written_spec t (hst.2.1 ▸ hc) ht
  rw [← hst.2.1, ← hst.2.2.1] at h2
  exact writeSpec_unique t _ _ _ h1 h2

/-- The digest depends on the state at `sha_256_close` only through what
`SameStream` keeps. -/
theorem close_digest_congr (s t : Sha_256) (hst : SameStream s t) (hc : s.curlen ≤ 63)
    (hs : s.buffer.length = 64) (ht : t.buffer.length = 64) :
    (sha_256_close s).map digest = (sha_256_close t).map digest := by
  rw [close_digest s hc hs, close_digest t (hst.2.1 ▸ hc) ht,
    (close_written_congr s t hst hc hs ht).1]

theorem init_curlen (sha0 : Sha_256) : (sha_256_init sha0).curlen = 0 := rfl

theorem init_buffer (sha0 : Sha_256) : (sha_256_init sha0).buffer = sha0.buffer := rfl

/-- The chunks of a run leave what their concatenation determines. -/
theorem chunks_spec (sha : Sha_256) (chunks : List (List Nat)) (hc : sha.curlen ≤ 63)
    (hb : sha.buffer.length = 64) :
    WriteSpec sha chunks.flatten (chunks.foldl sha_256_write sha) := by
  have h := writeSpec_foldl sha_256_write id (fun s a hc hb => write_spec s a hc hb)
    chunks sha hc hb
  simpa [List.flatMap_id] using h

/-- The digest of a run does not depend on what the memory held before
`sha_256_init`. -/
theorem hash_chunks_blank (sha0 : Sha_256) (chunks : List (List Nat))
    (hb : sha0.buffer.length = 64) : hash_chunks sha0 chunks = hash_chunks blank chunks := by
  have h0 : SameStream (sha_256_init sha0) (sha_256_init blank) := ⟨rfl, rfl, rfl, rfl⟩
  have h1 := chunks_spec (sha_256_init sha0) chunks (Nat.zero_le _) hb
  have h2 := chunks_spec (sha_256_init blank) chunks (Nat.zero_le _) rfl
  have h3 := writeSpec_unique _ _ _ _ (writeSpec_congr _ _ _ _ h0 h1) h2
  exact close_digest_congr _ _ h3 (writeSpec_curlen_le _ _ _ h1) h1.buflen h2.buflen

theorem hash_chunks_length (sha0 : Sha_256) (chunks : List (List Nat))
    (hb : sha0.buffer.length = 64) :
    ∃ d, d.length = 32 ∧ hash_chunks sha0 chunks = some d := by
  have h1 := chunks_spec (sha_256_init sha0) chunks (Nat.zero_le _) hb
  refine ⟨_, ?_, close_digest _ (writeSpec_curlen_le _ _ _ h1) h1.buflen⟩
  exact state_bytes_length _ 8

/-! ## Accounting over a run -/

theorem chunks_count : ∀ (chunks : List (List Nat)) (sha : Sha_256), sha.curlen ≤ 63 →
    (chunks.foldl sha_256_write sha).curlen = (sha.curlen + chunks.flatten.length) % 64 ∧
    (chunks.foldl sha_256_write sha).length
      = bump ((sha.curlen + chunks.flatten.length) / 64) sha.length := by
  intro chunks
  induction chunks with
  | nil =>
    intro sha hc
    have hq : (sha.curlen + ([] : List (List Nat)).flatten.length) / 64 = 0 := by simp; omega
    rw [hq]
    exact ⟨by simp; omega, rfl⟩
  | cons c cs ih =>
    intro sha hc
    have h1 := write_curlen sha c hc
    have h2 := write_length sha c hc
    have h := ih (sha_256_write sha c) (by rw [h1]; omega)
    have hq : (sha.curlen + (c :: cs).flatten.length) / 64
        = (sha.curlen + c.length) / 64
          + ((sha_256_write sha c).curlen + cs.flatten.length) / 64 := by
      rw [h1]; simp; omega
    rw [List.foldl_cons, h.1, h.2, hq, bump_add, h2, h1]
    exact ⟨by simp; omega, rfl⟩

/-! ## The writer without the fast path -/

/-- One byte through `sha_256_write` is one byte through the naive writer. -/
theorem write_singleton (sha : Sha_256) (b : Nat) (hc : sha.curlen ≤ 63)
    (hb : sha.buffer.length = 64) : sha_256_write sha [b] = naive_push sha b := by
  have hm : memcpy sha.buffer sha.curlen [b] 1 = sha.buffer.set sha.curlen b := by
    rw [List.set_eq_take_append_cons_drop, if_pos (by omega)]
    simp [memcpy]
  rw [sha_256_write_unfold sha [b] hc (by simp)]
  by_cases h63 : sha.curlen = 63
  · rw [write_step_full sha [b] hc (by simp) (by simp; omega)]
    have e : 64 - sha.curlen = 1 := by omega
    simp only [e, List.drop_one, List.tail_cons, hm]
    unfold sha_256_write naive_push
    rw [write_loop_nil]
    simp [h63, transform_eq]
  · rw [write_step_part sha [b] hc (by simp; omega)]
    unfold sha_256_write naive_push
    rw [write_loop_nil]
    have : ¬ (sha.curlen + 1 = 64) := by omega
    simp [this, hm]

theorem naive_push_spec (sha : Sha_256) (b : Nat) (hc : sha.curlen ≤ 63)
    (hb : sha.buffer.length = 64) : WriteSpec sha [b] (naive_push sha b) := by
  rw [← write_singleton sha b hc hb]; exact write_spec sha [b] hc hb

theorem naive_write_spec (sha : Sha_256) (data : List Nat) (hc : sha.curlen ≤ 63)
    (hb : sha.buffer.length = 64) : WriteSpec sha data (naive_write sha data) := by
  have h := writeSpec_foldl naive_push (fun b => [b]) naive_push_spec data sha hc hb
  have e : data.flatMap (fun b => [b]) = data := by
    induction data with
    | nil => rfl
    | cons a l ih => simp [List.flatMap_cons, ih]
  rw [e] at h
  exact h

theorem bytewise_write_spec (sha : Sha_256) (data : List Nat) (hc : sha.curlen ≤ 63)
    (hb : sha.buffer.length = 64) : WriteSpec sha data (bytewise_write sha data) := by
  have h := writeSpec_foldl (fun s b => sha_256_write s [b]) (fun b => [b])
    (fun s b hc hb => write_spec s [b] hc hb) data sha hc hb
  have e : data.flatMap (fun b => [b]) = data := by
    induction data with
    | nil => rfl
    | cons a l ih => simp [List.flatMap_cons, ih]
  rw [e] at h
  exact h

/-! ## The frame of the last loop -/

theorem store_fold_curlen (l : List Nat) (s : Sha_256) :
    (l.foldl store_step s).curlen = s.curlen := by
  induction l generalizing s with
  | nil => rfl
  | cons i l ih => rw [List.foldl_cons, ih]; rfl

/-! ## The bit operations against the functions of FIPS 180-4 -/

theorem ROTRIGHT_eq (x n : Nat) (hx : x < 2 ^ 32) (hn : n ≤ 32) :
    ROTRIGHT x n = FIPS.ROTR n x := by
  unfold ROTRIGHT FIPS.ROTR
  have h32 : (2 : Nat) ^ 32 = 2 ^ n * 2 ^ (32 - n) := by
    rw [← Nat.pow_add]; congr 1; omega
  have hlt : x / 2 ^ n < 2 ^ (32 - n) := by
    rw [Nat.div_lt_iff_lt_mul (Nat.pos_pow_of_pos n (by norm_num)), Nat.mul_comm, ← h32]
    exact hx
  rw [Nat.shiftRight_eq_div_pow, Nat.shiftLeft_eq, h32, Nat.mul_mod_mul_right, Nat.or_comm,
    Nat.mul_comm (x % 2 ^ n), ← Nat.mul_add_lt_is_or hlt]

theorem EP0_eq (x : Nat) (hx : x < 2 ^ 32) : EP0 x = FIPS.Sigma0 x := by
  unfold EP0 FIPS.Sigma0
  rw [ROTRIGHT_eq x 2 hx (by norm_num), ROTRIGHT_eq x 13 hx (by norm_num),
    ROTRIGHT_eq x 22 hx (by norm_num)]

theorem EP1_eq (x : Nat) (hx : x < 2 ^ 32) : EP1 x = FIPS.Sigma1 x := by
  unfold EP1 FIPS.Sigma1
  rw [ROTRIGHT_eq x 6 hx (by norm_num), ROTRIGHT_eq x 11 hx (by norm_num),
    ROTRIGHT_eq x 25 hx (by norm_num)]

theorem SIG0_eq (x : Nat) (hx : x < 2 ^ 32) : SIG0 x = FIPS.sigma0 x := by
  unfold SIG0 FIPS.sigma0 FIPS.SHR
  rw [ROTRIGHT_eq x 7 hx (by norm_num), ROTRIGHT_eq x 18 hx (by norm_num),
    Nat.shiftRight_eq_div_pow]

theorem SIG1_eq (x : Nat) (hx : x < 2 ^ 32) : SIG1 x = FIPS.sigma1 x := by
  unfold SIG1 FIPS.sigma1 FIPS.SHR
  rw [ROTRIGHT_eq x 17 hx (by norm_num), ROTRIGHT_eq x 19 hx (by norm_num),
    Nat.shiftRight_eq_div_pow]

theorem CH_eq (x y z : Nat) : CH x y z = FIPS.Ch x y z := rfl

theorem MAJ_eq (x y z : Nat) : MAJ x y z = FIPS.Maj x y z := rfl

/-- The shifts and ors of the first loop assemble the big-endian word. -/
theorem load_word (a b c d : Nat) (hb : b < 2 ^ 8) (hc : c < 2 ^ 8) (hd : d < 2 ^ 8) :
    (a <<< 24) ||| (b <<< 16) ||| (c <<< 8) ||| d
      = a * 2 ^ 24 + b * 2 ^ 16 + c * 2 ^ 8 + d := by
  simp only [Nat.shiftLeft_eq]
  have h1 : a * 2 ^ 24 ||| b * 2 ^ 16 = 2 ^ 24 * a + b * 2 ^ 16 := by
    rw [Nat.mul_comm a, Nat.mul_add_lt_is_or (by omega)]
  have h2 : (2 ^ 24 * a + b * 2 ^ 16) ||| c * 2 ^ 8 = 2 ^ 16 * (2 ^ 8 * a + b) + c * 2 ^ 8 := by
    have e : 2 ^ 24 * a + b * 2 ^ 16 = 2 ^ 16 * (2 ^ 8 * a + b) := by ring
    have hlt : c * 2 ^ 8 < 2 ^ 16 := by omega
    rw [e, ← Nat.mul_add_lt_is_or hlt]
  have h3 : (2 ^ 16 * (2 ^ 8 * a + b) + c * 2 ^ 8) ||| d
      = 2 ^ 8 * (2 ^ 8 * (2 ^ 8 * a + b) + c) + d := by
    have e : 2 ^ 16 * (2 ^ 8 * a + b) + c * 2 ^ 8 = 2 ^ 8 * (2 ^ 8 * (2 ^ 8 * a + b) + c) := by
      ring
    rw [e, ← Nat.mul_add_lt_is_or hd]
  rw [h1, h2, h3]; ring

theorem getD_bytes (data : List Nat) (hB : Bytes data) (k : Nat) : data.getD k 0 < 2 ^ 8 := by
  by_cases h : k < data.length
  · rw [List.getD_eq_getElem _ _ h]; exact hB _ (List.getElem_mem h)
  · rw [List.getD_eq_default _ _ (by omega)]; norm_num

theorem load_step_spec (data : List Nat) (hB : Bytes data) (m : List Nat) (i : Nat) :
    load_step data m i = m.set i (FIPS.M data i) := by
  unfold load_step FIPS.M
  rw [load_word _ _ _ _ (getD_bytes data hB _) (getD_bytes data hB _) (getD_bytes data hB _)]

theorem M_lt (data : List Nat) (hB : Bytes data) (t : Nat) : FIPS.M data t < 2 ^ 32 := by
  unfold FIPS.M
  have h0 := getD_bytes data hB (4 * t)
  have h1 := getD_bytes data hB (4 * t + 1)
  have h2 := getD_bytes data hB (4 * t + 2)
  have h3 := getD_bytes data hB (4 * t + 3)
  omega

theorem W_lt (data : List Nat) (hB : Bytes data) (t : Nat) : FIPS.W data t < 2 ^ 32 := by
  unfold FIPS.W
  split
  · exact M_lt data hB t
  · exact Nat.mod_lt _ (by norm_num)

/-! ## The loops of `sha_256_transform` against the recurrences of FIPS 180-4 -/

/-- An invariant of a counting loop. -/
theorem foldl_range'_inv {α : Type} (P : Nat → α → Prop) (f : α → Nat → α) :
    ∀ (n s : Nat) (a : α), P s a →
      (∀ i b, s ≤ i → i < s + n → P i b → P (i + 1) (f b i)) →
      P (s + n) ((List.range' s n).foldl f a) := by
  intro n
  induction n with
  | zero => intro s a h _; simpa using h
  | succ n ih =>
    intro s a h hstep
    rw [List.range'_succ, List.foldl_cons]
    have := ih (s + 1) (f a s) (hstep s a (le_refl _) (by omega) h)
      (fun i b h1 h2 hP => hstep i b (by omega) (by omega) hP)
    rw [show s + (n + 1) = s + 1 + n by omega]
    exact this

theorem getD_set (m : List Nat) (i j v : Nat) (hi : i < m.length) :
    (m.set i v).getD j 0 = if i = j then v else m.getD j 0 := by
  simp only [List.getD_eq_getElem?_getD, List.getElem?_set]
  split
  · simp [hi]
  · rfl

theorem load_step_inv (data : List Nat) (hB : Bytes data) (i : Nat) (m : List Nat)
    (hi : i < 16) (h : ScheduleUpTo data i m) : ScheduleUpTo data (i + 1) (load_step data m i) := by
  obtain ⟨hl, hm⟩ := h
  rw [load_step_spec data hB]
  refine ⟨by simp [hl], ?_⟩
  intro j hj
  rw [getD_set _ _ _ _ (by omega)]
  split
  · next e => subst e; rw [FIPS.W, if_pos hi]
  · next e => exact hm j (by omega)

theorem expand_step_inv (data : List Nat) (hB : Bytes data) (i : Nat) (m : List Nat)
    (h16 : 16 ≤ i) (hi : i < 64) (h : ScheduleUpTo data i m) :
    ScheduleUpTo data (i + 1) (expand_step m i) := by
  obtain ⟨hl, hm⟩ := h
  unfold expand_step
  refine ⟨by simp [hl], ?_⟩
  intro j hj
  rw [getD_set _ _ _ _ (by omega)]
  split
  · next e =>
    subst e
    rw [hm (i - 2) (by omega), hm (i - 7) (by omega), hm (i - 15) (by omega),
      hm (i - 16) (by omega), SIG1_eq _ (W_lt data hB _), SIG0_eq _ (W_lt data hB _)]
    conv_rhs => rw [FIPS.W, if_neg (by omega)]
  · next e => exact hm j (by omega)

/-- The two loops fill `m[0..64)` with the message schedule of FIPS 180-4. -/
theorem message_schedule_spec (data : List Nat) (hB : Bytes data) :
    ScheduleUpTo data 64 (message_schedule data) := by
  unfold message_schedule
  have h1 : ScheduleUpTo data (0 + 16) ((List.range' 0 16).foldl (load_step data)
      (List.replicate 64 0)) :=
    foldl_range'_inv (ScheduleUpTo data) (load_step data) 16 0 _
      ⟨by simp, fun i hi => by omega⟩
      (fun i b _ h2 hP => load_step_inv data hB i b (by omega) hP)
  rw [List.range_eq_range']
  exact foldl_range'_inv (ScheduleUpTo data) expand_step 48 16 _ h1
    (fun i b h1 h2 hP => expand_step_inv data hB i b h1 (by omega) hP)

theorem round_step_eq (data : List Nat) (m : List Nat) (v : Vars) (i : Nat)
    (hm : m.getD i 0 = FIPS.W data i) (ha : v.a < 2 ^ 32) (he : v.e < 2 ^ 32) :
    round_step m v i = FIPS.round (K.getD i 0) (FIPS.W data i) v := by
  unfold round_step FIPS.round
  rw [hm, EP0_eq _ ha, EP1_eq _ he]
  rfl

theorem rounds_spec (H : List Nat) (data : List Nat) (m : List Nat) (hH : ∀ x ∈ H, x < 2 ^ 32)
    (hm : ScheduleUpTo data 64 m) (k : Nat) (hk : k ≤ 64) :
    (List.range k).foldl (round_step m) (FIPS.rounds H data 0) = FIPS.rounds H data k ∧
      (FIPS.rounds H data k).a < 2 ^ 32 ∧ (FIPS.rounds H data k).e < 2 ^ 32 := by
  have hget : ∀ j, H.getD j 0 < 2 ^ 32 := by
    intro j
    by_cases h : j < H.length
    · rw [List.getD_eq_getElem _ _ h]; exact hH _ (List.getElem_mem h)
    · rw [List.getD_eq_default _ _ (by omega)]; norm_num
  induction k with
  | zero => exact ⟨rfl, hget 0, hget 4⟩
  | succ k ih =>
    obtain ⟨h1, h2, h3⟩ := ih (by omega)
    rw [List.range_succ, List.foldl_append, h1]
    simp only [List.foldl_cons, List.foldl_nil]
    rw [round_step_eq data m _ k (hm.2 k (by omega)) h2 h3]
    refine ⟨rfl, ?_, ?_⟩
    · show (_ % 2 ^ 32) < 2 ^ 32; exact Nat.mod_lt _ (by norm_num)
    · show (_ % 2 ^ 32) < 2 ^ 32; exact Nat.mod_lt _ (by norm_num)

/-- The transform computes the compression function of FIPS 180-4 on the
state words. -/
theorem compress_words_eq (H : List Nat) (data : List Nat) (hl : H.length = 8)
    (hH : ∀ x ∈ H, x < 2 ^ 32) (hB : Bytes data) :
    compress_words H data = FIPS.compress H data := by
  have hr := (rounds_spec H data _ hH (message_schedule_spec data hB) 64 (le_refl _)).1
  unfold compress_words sha_256_transform FIPS.compress
  simp only
  have e : Vars.mk (H.getD 0 0) (H.getD 1 0) (H.getD 2 0) (H.getD 3 0)
      (H.getD 4 0) (H.getD 5 0) (H.getD 6 0) (H.getD 7 0) = FIPS.rounds H data 0 := rfl
  rw [e, hr]
  match H, hl with
  | [h0, h1, h2, h3, h4, h5, h6, h7], _ => simp

/-! ## The serialised digest -/

theorem set_bound (l : List Nat) (i v B : Nat) (hl : ∀ x ∈ l, x < B) (hv : v < B) :
    ∀ x ∈ l.set i v, x < B := by
  intro x hx
  rcases List.mem_or_eq_of_mem_set hx with h | h
  · exact hl x h
  · rw [h]; exact hv

theorem compress_words_lt (st data : List Nat) (h : ∀ x ∈ st, x < 2 ^ 32) :
    ∀ x ∈ compress_words st data, x < 2 ^ 32 := by
  have hm : ∀ n : Nat, n % 2 ^ 32 < 2 ^ 32 := fun n => Nat.mod_lt _ (by norm_num)
  unfold compress_words sha_256_transform
  simp only
  exact set_bound _ _ _ _ (set_bound _ _ _ _ (set_bound _ _ _ _ (set_bound _ _ _ _
    (set_bound _ _ _ _ (set_bound _ _ _ _ (set_bound _ _ _ _ (set_bound _ _ _ _ h
    (hm _)) (hm _)) (hm _)) (hm _)) (hm _)) (hm _)) (hm _)) (hm _)

theorem absorb_lt (n : Nat) (st p : List Nat) (h : ∀ x ∈ st, x < 2 ^ 32) :
    ∀ x ∈ absorb n st p, x < 2 ^ 32 := by
  induction n generalizing st p with
  | zero => exact h
  | succ n ih => rw [absorb_succ]; exact ih _ _ (compress_words_lt st p h)

theorem getD_lt (l : List Nat) (B : Nat) (hB : 0 < B) (h : ∀ x ∈ l, x < B) (i : Nat) :
    l.getD i 0 < B := by
  by_cases hi : i < l.length
  · rw [List.getD_eq_getElem _ _ hi]; exact h _ (List.getElem_mem hi)
  · rw [List.getD_eq_default _ _ (by omega)]; exact hB

/-- The bytes stored for a word are its big-endian bytes. -/
theorem word_bytes_eq (t : Nat) : word_bytes t = FIPS.be_bytes 4 t := by
  have h255 : (0xff : Nat) = 2 ^ 8 - 1 := by norm_num
  unfold word_bytes FIPS.be_bytes
  simp only [h255, Nat.and_pow_two_sub_one_eq_mod, Nat.shiftRight_eq_div_pow, Nat.mod_mod]
  simp [List.range_succ]

theorem word_bytes_value (t : Nat) (ht : t < 2 ^ 32) :
    ((t >>> 24) &&& 0xff) % 2 ^ 8 * 2 ^ 24 + ((t >>> 16) &&& 0xff) % 2 ^ 8 * 2 ^ 16
      + ((t >>> 8) &&& 0xff) % 2 ^ 8 * 2 ^ 8 + (t &&& 0xff) % 2 ^ 8 = t := by
  have h255 : (0xff : Nat) = 2 ^ 8 - 1 := by norm_num
  simp only [h255, Nat.and_pow_two_sub_one_eq_mod, Nat.shiftRight_eq_div_pow, Nat.mod_mod]
  omega

theorem state_bytes_getD (st : List Nat) (i : Nat) (hi : i < 8) (rest : List Nat) :
    (state_bytes st 8 ++ rest).getD (4 * i) 0 = (word_bytes (st.getD i 0)).getD 0 0 ∧
    (state_bytes st 8 ++ rest).getD (4 * i + 1) 0 = (word_bytes (st.getD i 0)).getD 1 0 ∧
    (state_bytes st 8 ++ rest).getD (4 * i + 2) 0 = (word_bytes (st.getD i 0)).getD 2 0 ∧
    (state_bytes st 8 ++ rest).getD (4 * i + 3) 0 = (word_bytes (st.getD i 0)).getD 3 0 := by
  have e : state_bytes st 8 = word_bytes (st.getD 0 0) ++ word_bytes (st.getD 1 0)
      ++ word_bytes (st.getD 2 0) ++ word_bytes (st.getD 3 0) ++ word_bytes (st.getD 4 0)
      ++ word_bytes (st.getD 5 0) ++ word_bytes (st.getD 6 0) ++ word_bytes (st.getD 7 0) := by
    simp [state_bytes, List.range_succ]
  rw [e]
  interval_cases i <;> simp [word_bytes]

/-! ## The input `abc` -/

/-- What the code leaves for the 3 bytes `abc`. -/
theorem abc_code :
    hash_chunks blank [[0x61, 0x62, 0x63]] = some
      [0x5b, 0x2b, 0xea, 0xc7, 0xed, 0xfc, 0x3d, 0x10, 0x5f, 0x66, 0x43, 0x5f, 0x0d, 0xdf, 0x6c, 0x8b,
       0xa1, 0xa0, 0x7f, 0xf7, 0x84, 0x22, 0x9b, 0xf0, 0x7a, 0xc9, 0x2a, 0x88, 0xeb, 0x47, 0x56, 0xec] := by
  set_option maxRecDepth 100000 in decide

/-- The SHA-256 digest of `abc` by the definitions of FIPS 180-4. -/
theorem fips_abc :
    FIPS.sha256 [0x61, 0x62, 0x63] =
      [0xba, 0x78, 0x16, 0xbf, 0x8f, 0x01, 0xcf, 0xea, 0x41, 0x41, 0x40, 0xde, 0x5d, 0xae, 0x22, 0x23,
       0xb0, 0x03, 0x61, 0xa3, 0x96, 0x17, 0x7a, 0x9c, 0xb4, 0x10, 0xff, 0x61, 0xf2, 0x00, 0x15, 0xad] := by
  have hn : (FIPS.pad [0x61, 0x62, 0x63]).length / 64 = 1 := by decide
  have hB : Bytes ((FIPS.pad [0x61, 0x62, 0x63]).take 64) := by
    show ∀ x ∈ _, x < 2 ^ 8
    decide
  have hH : ∀ x ∈ FIPS.H0, x < 2 ^ 32 := by decide
  unfold FIPS.sha256
  rw [hn]
  simp only [FIPS.hash_blocks]
  rw [← compress_words_eq FIPS.H0 _ rfl hH hB]
  set_option maxRecDepth 100000 in decide

/-! ## Conformance to FIPS 180-4 (C1) -/

/-- C1 at the code: for the 3 bytes `abc`, `sha_256_init`, one `sha_256_write`
and `sha_256_close` do not leave in `buffer[0..32)` the SHA-256 digest that
FIPS 180-4 defines, which is `ba7816bf…f20015ad`: the length field that
`sha_256_close` appends is `length`, here 0, not the bit length 24. -/
theorem abc_digest_is_not_fips :
    hash_chunks blank [[0x61, 0x62, 0x63]] ≠ some (FIPS.sha256 [0x61, 0x62, 0x63]) ∧
    finalcount (sha_256_write (sha_256_init blank) [0x61, 0x62, 0x63]).length
      ≠ FIPS.be_bytes 8 (8 * [0x61, 0x62, 0x63].length) := by
  refine ⟨?_, by decide⟩
  rw [abc_code, fips_abc]
  decide

/-! ## Chunking (C2) -/

/-- C2: chunking independence.  For every list of chunks (possibly empty,
chunks possibly empty), `sha_256_init`, one `sha_256_write` per chunk and
`sha_256_close` return, and leave in `buffer[0..32)` the same 32 bytes as
`sha_256_init`, a single `sha_256_write` of the concatenation and
`sha_256_close`. -/
theorem chunking_independence (sha0 : Sha_256) (chunks : List (List Nat))
    (hb : sha0.buffer.length = 64) :
    ∃ d : List Nat, d.length = 32 ∧ hash_chunks sha0 chunks = some d ∧
      hash_chunks sha0 [chunks.flatten] = some d := by
  obtain ⟨d, hd, h⟩ := hash_chunks_length sha0 chunks hb
  refine ⟨d, hd, h, ?_⟩
  rw [← h]
  have h1 := chunks_spec (sha_256_init sha0) chunks (Nat.zero_le _) hb
  have h2 := write_spec (sha_256_init sha0) chunks.flatten (Nat.zero_le _) hb
  have h3 := writeSpec_unique _ _ _ _ h2 h1
  exact close_digest_congr _ _ h3 (writeSpec_curlen_le _ _ _ h2) h2.buflen h1.buflen

/-- Witness of C2: the bytes `abc` in the chunks `a`, empty, `bc`. -/
theorem chunking_independence_witness :
    blank.buffer.length = 64 ∧
    ∃ d : List Nat, d.length = 32 ∧ hash_chunks blank [[0x61], [], [0x62, 0x63]] = some d ∧
      hash_chunks blank [[[0x61], [], [0x62, 0x63]].flatten] = some d :=
  ⟨rfl, chunking_independence blank [[0x61], [], [0x62, 0x63]] rfl⟩

/-! ## Known answers (C3, C4) -/

/-- C3 at the code: after `sha_256_init`, `sha_256_write` of the 3 bytes `abc`
and `sha_256_close`, `buffer[0..32)` holds `5b2beac7…eb4756ec`, the digest of a
block whose length field is 0, and not the known answer `ba7816bf…f20015ad`. -/
theorem kat_abc_fails :
    hash_chunks blank [[0x61, 0x62, 0x63]] = some
      [0x5b, 0x2b, 0xea, 0xc7, 0xed, 0xfc, 0x3d, 0x10, 0x5f, 0x66, 0x43, 0x5f, 0x0d, 0xdf, 0x6c, 0x8b,
       0xa1, 0xa0, 0x7f, 0xf7, 0x84, 0x22, 0x9b, 0xf0, 0x7a, 0xc9, 0x2a, 0x88, 0xeb, 0x47, 0x56, 0xec] ∧
    hash_chunks blank [[0x61, 0x62, 0x63]] ≠ some
      [0xba, 0x78, 0x16, 0xbf, 0x8f, 0x01, 0xcf, 0xea, 0x41, 0x41, 0x40, 0xde, 0x5d, 0xae, 0x22, 0x23,
       0xb0, 0x03, 0x61, 0xa3, 0x96, 0x17, 0x7a, 0x9c, 0xb4, 0x10, 0xff, 0x61, 0xf2, 0x00, 0x15, 0xad] := by
  refine ⟨abc_code, ?_⟩
  rw [abc_code]
  decide

/-- C4: known answer for the empty input.  Whatever the memory held before,
`sha_256_init` followed directly by `sha_256_close`, with no write or with a
zero-length write, leaves `e3b0c442…7852b855` in `buffer[0..32)`. -/
theorem kat_empty (sha0 : Sha_256) (hb : sha0.buffer.length = 64) :
    hash_chunks sha0 [] = some
      [0xe3, 0xb0, 0xc4, 0x42, 0x98, 0xfc, 0x1c, 0x14, 0x9a, 0xfb, 0xf4, 0xc8, 0x99, 0x6f, 0xb9, 0x24,
       0x27, 0xae, 0x41, 0xe4, 0x64, 0x9b, 0x93, 0x4c, 0xa4, 0x95, 0x99, 0x1b, 0x78, 0x52, 0xb8, 0x55] ∧
    hash_chunks sha0 [[]] = some
      [0xe3, 0xb0, 0xc4, 0x42, 0x98, 0xfc, 0x1c, 0x14, 0x9a, 0xfb, 0xf4, 0xc8, 0x99, 0x6f, 0xb9, 0x24,
       0x27, 0xae, 0x41, 0xe4, 0x64, 0x9b, 0x93, 0x4c, 0xa4, 0x95, 0x99, 0x1b, 0x78, 0x52, 0xb8, 0x55] := by
  rw [hash_chunks_blank sha0 _ hb, hash_chunks_blank sha0 _ hb]
  set_option maxRecDepth 100000 in decide

/-- Witness of C4: the memory with all bytes `0xff` before `sha_256_init`. -/
theorem kat_empty_witness :
    ({ blank with buffer := List.replicate 64 0xff } : Sha_256).buffer.length = 64 ∧
    hash_chunks { blank with buffer := List.replicate 64 0xff } [] = some
      [0xe3, 0xb0, 0xc4, 0x42, 0x98, 0xfc, 0x1c, 0x14, 0x9a, 0xfb, 0xf4, 0xc8, 0x99, 0x6f, 0xb9, 0x24,
       0x27, 0xae, 0x41, 0xe4, 0x64, 0x9b, 0x93, 0x4c, 0xa4, 0x95, 0x99, 0x1b, 0x78, 0x52, 0xb8, 0x55] ∧
    hash_chunks { blank with buffer := List.replicate 64 0xff } [[]] = some
      [0xe3, 0xb0, 0xc4, 0x42, 0x98, 0xfc, 0x1c, 0x14, 0x9a, 0xfb, 0xf4, 0xc8, 0x99, 0x6f, 0xb9, 0x24,
       0x27, 0xae, 0x41, 0xe4, 0x64, 0x9b, 0x93, 0x4c, 0xa4, 0x95, 0x99, 0x1b, 0x78, 0x52, 0xb8, 0x55] :=
  ⟨rfl, kat_empty { blank with buffer := List.replicate 64 0xff } rfl⟩

/-! ## The counter `length` (C5) -/

/-- C5 as stated fails: after `sha_256_init` and a write of the 3 bytes `abc`,
`length` is 0 and not `8 * 3`. -/
theorem length_invariant_counterexample :
    (([[0x61, 0x62, 0x63]] : List (List Nat)).foldl sha_256_write (sha_256_init blank)).length = 0 ∧
    ¬ (([[0x61, 0x62, 0x63]] : List (List Nat)).foldl sha_256_write (sha_256_init blank)).length
        = 8 * ([[0x61, 0x62, 0x63]] : List (List Nat)).flatten.length := by
  decide

/-- C5, amended: after `sha_256_init` and writes that total `N < 2^61` bytes,
`length` counts the bits of the blocks compressed so far, `512 * (N / 64)`, and
`curlen = N % 64` counts the bytes still in the buffer, so that
`length + 8 * curlen = 8 * N`. -/
theorem length_invariant (sha0 : Sha_256) (chunks : List (List Nat))
    (hN : chunks.flatten.length < 2 ^ 61) :
    (chunks.foldl sha_256_write (sha_256_init sha0)).length
        = 512 * (chunks.flatten.length / 64) ∧
    (chunks.foldl sha_256_write (sha_256_init sha0)).curlen = chunks.flatten.length % 64 ∧
    (chunks.foldl sha_256_write (sha_256_init sha0)).length
        + 8 * (chunks.foldl sha_256_write (sha_256_init sha0)).curlen
      = 8 * chunks.flatten.length := by
  have h := chunks_count chunks (sha_256_init sha0) (Nat.zero_le _)
  have e1 : (sha_256_init sha0).curlen = 0 := rfl
  have e2 : (sha_256_init sha0).length = 0 := rfl
  rw [e1, e2, Nat.zero_add, bump_eq _ _ (by norm_num)] at h
  rw [h.1, h.2]
  omega

/-- Witness of C5, amended: 70 bytes in the chunks of 3 and 67 bytes. -/
theorem length_invariant_witness :
    ([List.replicate 3 0x61, List.replicate 67 0x62] : List (List Nat)).flatten.length < 2 ^ 61 ∧
    (([List.replicate 3 0x61, List.replicate 67 0x62] : List (List Nat)).foldl sha_256_write
        (sha_256_init blank)).length = 512 ∧
    (([List.replicate 3 0x61, List.replicate 67 0x62] : List (List Nat)).foldl sha_256_write
        (sha_256_init blank)).curlen = 6 :=
  ⟨by decide,
   (length_invariant blank [List.replicate 3 0x61, List.replicate 67 0x62] (by decide)).1,
   (length_invariant blank [List.replicate 3 0x61, List.replicate 67 0x62] (by decide)).2.1⟩

/-! ## The invariant on `curlen` (C6) -/

/-- C6: `sha_256_init` sets `curlen = 0`; `sha_256_write` from a state with
`curlen ≤ 63` leaves `curlen ≤ 63`, whatever the input; hence `curlen ≤ 63` in
every state reached from `sha_256_init` by writes. -/
theorem curlen_invariant (sha0 sha : Sha_256) (data : List Nat) (chunks : List (List Nat))
    (hc : sha.curlen ≤ 63) :
    (sha_256_init sha0).curlen = 0 ∧ (sha_256_write sha data).curlen ≤ 63 ∧
      (chunks.foldl sha_256_write (sha_256_init sha0)).curlen ≤ 63 := by
  refine ⟨rfl, ?_, ?_⟩
  · rw [write_curlen sha data hc]; omega
  · rw [(chunks_count chunks (sha_256_init sha0) (Nat.zero_le _)).1]; omega

/-- Witness of C6: a write of 100 bytes from `curlen = 63`. -/
theorem curlen_invariant_witness :
    ({ blank with curlen := 63 } : Sha_256).curlen ≤ 63 ∧
    (sha_256_init blank).curlen = 0 ∧
      (sha_256_write { blank with curlen := 63 } (List.replicate 100 7)).curlen ≤ 63 ∧
      (([[1, 2], [], [3]] : List (List Nat)).foldl sha_256_write (sha_256_init blank)).curlen ≤ 63 :=
  ⟨by decide,
   curlen_invariant blank { blank with curlen := 63 } (List.replicate 100 7) [[1, 2], [], [3]]
    (by decide)⟩

/-! ## The fast path (C7) -/

/-- C7: the fast path is not a semantic difference.  From a state with
`curlen ≤ 63`, `sha_256_write` leaves the same state words, the same `curlen`,
the same `length` and the same first `curlen` bytes of `buffer` as the naive
writer that sends every byte through the buffer, and as the input fed one byte
per call of `sha_256_write`. -/
theorem fast_path_refines_naive (sha : Sha_256) (data : List Nat) (hc : sha.curlen ≤ 63)
    (hb : sha.buffer.length = 64) :
    ((sha_256_write sha data).state = (naive_write sha data).state ∧
      (sha_256_write sha data).curlen = (naive_write sha data).curlen ∧
      (sha_256_write sha data).length = (naive_write sha data).length ∧
      (sha_256_write sha data).buffer.take (sha_256_write sha data).curlen
        = (naive_write sha data).buffer.take (naive_write sha data).curlen) ∧
    ((sha_256_write sha data).state = (bytewise_write sha data).state ∧
      (sha_256_write sha data).curlen = (bytewise_write sha data).curlen ∧
      (sha_256_write sha data).length = (bytewise_write sha data).length ∧
      (sha_256_write sha data).buffer.take (sha_256_write sha data).curlen
        = (bytewise_write sha data).buffer.take (bytewise_write sha data).curlen) :=
  ⟨writeSpec_unique sha _ _ data (write_spec sha data hc hb) (naive_write_spec sha data hc hb),
   writeSpec_unique sha _ _ data (write_spec sha data hc hb) (bytewise_write_spec sha data hc hb)⟩

/-- Witness of C7: 130 bytes from the state after `sha_256_init`, two blocks
on the fast path and two bytes through the buffer. -/
theorem fast_path_refines_naive_witness :
    (sha_256_init blank).curlen ≤ 63 ∧ (sha_256_init blank).buffer.length = 64 ∧
    (sha_256_write (sha_256_init blank) (List.replicate 130 0x61)).state
      = (naive_write (sha_256_init blank) (List.replicate 130 0x61)).state ∧
    (sha_256_write (sha_256_init blank) (List.replicate 130 0x61)).state
      = (bytewise_write (sha_256_init blank) (List.replicate 130 0x61)).state :=
  ⟨by decide, rfl,
   (fast_path_refines_naive (sha_256_init blank) (List.replicate 130 0x61) (by decide) rfl).1.1,
   (fast_path_refines_naive (sha_256_init blank) (List.replicate 130 0x61) (by decide) rfl).2.1⟩

/-! ## The block transform (C8) -/

/-- C8: `sha_256_transform` computes the compression function of FIPS 180-4.
For a state of 8 words below `2^32` and a block of 64 bytes, the array `m` holds
the message schedule (`W_t` the big-endian words of the block for `t < 16`,
`σ1(W_{t-2}) + W_{t-7} + σ0(W_{t-15}) + W_{t-16}` modulo `2^32` after), the new
state words are the old ones plus the working variables after the 64 rounds
with `Ch`, `Maj`, `Σ0`, `Σ1`, `K[t]` and `W_t`, modulo `2^32`, and `buffer`,
`curlen` and `length` are unchanged. -/
theorem transform_is_fips_compress (sha : Sha_256) (block : List Nat)
    (hs : sha.state.length = 8) (hw : ∀ x ∈ sha.state, x < 2 ^ 32)
    (hl : block.length = 64) (hB : Bytes block) :
    (∀ i, i < 64 → (message_schedule block).getD i 0 = FIPS.W block i) ∧
    sha_256_transform sha block = { sha with state := FIPS.compress sha.state block } ∧
    (sha_256_transform sha block).buffer = sha.buffer ∧
    (sha_256_transform sha block).curlen = sha.curlen ∧
    (sha_256_transform sha block).length = sha.length := by
  have _ := hl
  refine ⟨(message_schedule_spec block hB).2, ?_, rfl, rfl, rfl⟩
  rw [transform_eq, compress_words_eq _ _ hs hw hB]

/-- Witness of C8: the initial state and the block of 64 bytes `a`. -/
theorem transform_is_fips_compress_witness :
    (sha_256_init blank).state.length = 8 ∧ (∀ x ∈ (sha_256_init blank).state, x < 2 ^ 32) ∧
    (List.replicate 64 0x61).length = 64 ∧ Bytes (List.replicate 64 0x61) ∧
    sha_256_transform (sha_256_init blank) (List.replicate 64 0x61)
      = { sha_256_init blank with
          state := FIPS.compress (sha_256_init blank).state (List.replicate 64 0x61) } :=
  ⟨rfl, by decide, by decide, by unfold Bytes; decide,
   (transform_is_fips_compress (sha_256_init blank) (List.replicate 64 0x61) rfl (by decide)
      (by decide) (by unfold Bytes; decide)).2.1⟩

/-! ## The serialised digest (C9) -/

/-- C9: the digest is the big-endian serialisation of the final state words.
From a state with `curlen ≤ 63`, `sha_256_close` returns; `buffer[0..32)` has
32 bytes, which are the 4 big-endian bytes of each of the state words
`0..7` in order: `buffer[4i] * 2^24 + buffer[4i+1] * 2^16 + buffer[4i+2] * 2^8
+ buffer[4i+3]` is `state[i]` after the call. -/
theorem close_serialises_state (sha : Sha_256) (hc : sha.curlen ≤ 63)
    (hb : sha.buffer.length = 64) (hw : ∀ x ∈ sha.state, x < 2 ^ 32) :
    ∃ s, sha_256_close sha = some s ∧ (digest s).length = 32 ∧
      digest s = (List.range 8).flatMap (fun i => FIPS.be_bytes 4 (s.state.getD i 0)) ∧
      ∀ i, i < 8 →
        s.buffer.getD (4 * i) 0 * 2 ^ 24 + s.buffer.getD (4 * i + 1) 0 * 2 ^ 16
          + s.buffer.getD (4 * i + 2) 0 * 2 ^ 8 + s.buffer.getD (4 * i + 3) 0
        = s.state.getD i 0 := by
  have hlt : ∀ x ∈ (close_written sha).state, x < 2 ^ 32 := by
    rw [(close_written_spec sha hc hb).state]; exact absorb_lt _ _ _ hw
  have hd : (state_bytes (close_written sha).state 8
      ++ (close_written sha).buffer.drop 32).take 32
      = state_bytes (close_written sha).state 8 := List.take_left' (state_bytes_length _ 8)
  refine ⟨_, close_spec sha hc hb, ?_, ?_, ?_⟩
  · show (List.take 32 _).length = 32
    rw [hd]; exact state_bytes_length _ 8
  · show List.take 32 _ = _
    rw [hd]
    unfold state_bytes
    simp only [word_bytes_eq]
  · intro i hi
    obtain ⟨e0, e1, e2, e3⟩ := state_bytes_getD (close_written sha).state i hi
      ((close_written sha).buffer.drop 32)
    show List.getD (state_bytes _ 8 ++ _) _ 0 * _ + List.getD (state_bytes _ 8 ++ _) _ 0 * _
      + List.getD (state_bytes _ 8 ++ _) _ 0 * _ + List.getD (state_bytes _ 8 ++ _) _ 0
      = (close_written sha).state.getD i 0
    rw [e0, e1, e2, e3]
    exact word_bytes_value _ (getD_lt _ _ (by norm_num) hlt i)

/-- Witness of C9: `sha_256_close` right after `sha_256_init`. -/
theorem close_serialises_state_witness :
    (sha_256_init blank).curlen ≤ 63 ∧ (sha_256_init blank).buffer.length = 64 ∧
    (∀ x ∈ (sha_256_init blank).state, x < 2 ^ 32) ∧
    ∃ s, sha_256_close (sha_256_init blank) = some s ∧ (digest s).length = 32 ∧
      digest s = (List.range 8).flatMap (fun i => FIPS.be_bytes 4 (s.state.getD i 0)) ∧
      ∀ i, i < 8 →
        s.buffer.getD (4 * i) 0 * 2 ^ 24 + s.buffer.getD (4 * i + 1) 0 * 2 ^ 16
          + s.buffer.getD (4 * i + 2) 0 * 2 ^ 8 + s.buffer.getD (4 * i + 3) 0
        = s.state.getD i 0 :=
  ⟨by decide, rfl, by decide,
   close_serialises_state (sha_256_init blank) (by decide) rfl (by decide)⟩

/-! ## The padding loop (C10) -/

/-- C10: the zero-padding loop of `sha_256_close` terminates.  From a state
with `curlen = c ≤ 63`, after the byte `0x80` the loop condition
`curlen != 56` holds before each of the first `(55 - c) mod 64` writes of a
zero byte and fails after them, so the loop, given any larger bound on its
iterations, stops there with `curlen = 56`; with the 8 bytes of `finalcount`
the bytes written complete a block, and `sha_256_close` returns with
`curlen = 0`. -/
theorem padding_loop_terminates (sha : Sha_256) (hc : sha.curlen ≤ 63) :
    (∀ j, j < (55 + 64 - sha.curlen) % 64 →
      ((fun s => sha_256_write s [0])^[j] (sha_256_write sha [0x80])).curlen ≠ 56) ∧
    ((fun s => sha_256_write s [0])^[(55 + 64 - sha.curlen) % 64]
      (sha_256_write sha [0x80])).curlen = 56 ∧
    (∀ fuel, (55 + 64 - sha.curlen) % 64 < fuel →
      sha_256_close_pad fuel (sha_256_write sha [0x80])
        = some ((fun s => sha_256_write s [0])^[(55 + 64 - sha.curlen) % 64]
            (sha_256_write sha [0x80]))) ∧
    (sha.curlen + 1 + (55 + 64 - sha.curlen) % 64 + (finalcount sha.length).length) % 64 = 0 ∧
    ∃ s, sha_256_close sha = some s ∧ s.curlen = 0 := by
  have h1 : (sha_256_write sha [0x80]).curlen = (sha.curlen + 1) % 64 := by
    rw [write_curlen _ _ hc]; rfl
  have h1le : (sha_256_write sha [0x80]).curlen ≤ 63 := by rw [h1]; omega
  have hk : (120 - (sha_256_write sha [0x80]).curlen) % 64 = (55 + 64 - sha.curlen) % 64 := by
    rw [h1]; omega
  refine ⟨?_, ?_, ?_, ?_, ?_⟩
  · intro j hj
    rw [iter_zero_curlen _ h1le, h1]; omega
  · rw [iter_zero_curlen _ h1le, h1]; omega
  · intro fuel hf
    rw [← hk]
    exact close_pad_iter fuel _ h1le (by omega)
  · rw [finalcount_length]; omega
  · refine ⟨_, close_eq sha hc, ?_⟩
    rw [store_fold_curlen]
    exact close_written_curlen sha hc

/-- Witness of C10: from `curlen = 60` the loop writes 59 zero bytes, through
the end of the block, and `sha_256_close` returns. -/
theorem padding_loop_terminates_witness :
    ({ blank with curlen := 60 } : Sha_256).curlen ≤ 63 ∧
    ((fun s => sha_256_write s [0])^[(55 + 64 - 60) % 64]
      (sha_256_write { blank with curlen := 60 } [0x80])).curlen = 56 ∧
    ∃ s, sha_256_close { blank with curlen := 60 } = some s ∧ s.curlen = 0 :=
  ⟨by decide, (padding_loop_terminates { blank with curlen := 60 } (by decide)).2.1,
   (padding_loop_terminates { blank with curlen := 60 } (by decide)).2.2.2.2⟩

/-! ## The blocks passed to `sha_256_transform` -/

theorem write_loop_calls_nil (fuel : Nat) (sha : Sha_256) : write_loop_calls fuel sha [] = [] := by
  cases fuel <;> simp [write_loop_calls]

theorem write_loop_calls_succ (fuel : Nat) (sha : Sha_256) (data : List Nat) (h : data ≠ []) :
    write_loop_calls (fuel + 1) sha data = write_step_calls sha data
      ++ write_loop_calls fuel (sha_256_write_step sha data).1 (sha_256_write_step sha data).2 := by
  have : data.length > 0 := List.length_pos.mpr h
  simp [write_loop_calls, this]

theorem write_step_calls_fast (sha : Sha_256) (data : List Nat) (h0 : sha.curlen = 0)
    (h64 : 64 ≤ data.length) : write_step_calls sha data = [data.take 64] := by
  simp [write_step_calls, h0, h64]

theorem write_step_calls_full (sha : Sha_256) (data : List Nat) (hc : sha.curlen ≤ 63)
    (hfast : ¬ (sha.curlen = 0 ∧ 64 ≤ data.length)) (hn : 64 - sha.curlen ≤ data.length) :
    write_step_calls sha data
      = [(memcpy sha.buffer sha.curlen data (64 - sha.curlen)).take 64] := by
  have hcc : copy_count sha.curlen data.length = 64 - sha.curlen := by
    rw [copy_count_eq _ _ hc]; omega
  have h1 : (sha.curlen + (64 - sha.curlen)) % 4294967296 = 64 := by omega
  simp [write_step_calls, hfast, hcc, h1]

theorem write_step_calls_part (sha : Sha_256) (data : List Nat) (hc : sha.curlen ≤ 63)
    (hn : data.length < 64 - sha.curlen) : write_step_calls sha data = [] := by
  have hcc : copy_count sha.curlen data.length = data.length := by
    rw [copy_count_eq _ _ hc]; omega
  have hfast : ¬ (sha.curlen = 0 ∧ 64 ≤ data.length) := by omega
  have h1 : (sha.curlen + data.length) % 4294967296 = sha.curlen + data.length := by omega
  have h2 : ¬ (sha.curlen + data.length = 64) := by omega
  simp [write_step_calls, hfast, hcc, h1, h2]

theorem callsSpec_nil (sha : Sha_256) (hc : sha.curlen ≤ 63) : CallsSpec sha [] [] := by
  have hq : (sha.curlen + ([] : List Nat).length) / 64 = 0 := by simp; omega
  constructor
  · rw [hq]; simp
  · rw [hq]; rfl
  · intro b hb; cases hb

/-- A block in front of the calls of the rest of the stream. -/
theorem callsSpec_cons (sha sha1 : Sha_256) (data rest X : List Nat) (calls : List (List Nat))
    (hX : X.length = 64) (hp : pending sha data = X ++ pending sha1 rest)
    (hq : (sha.curlen + data.length) / 64 = (sha1.curlen + rest.length) / 64 + 1)
    (h : CallsSpec sha1 rest calls) : CallsSpec sha data (X :: calls) := by
  obtain ⟨h1, h2, h3⟩ := h
  constructor
  · have e1 : X.take (64 * ((sha1.curlen + rest.length) / 64 + 1)) = X :=
      List.take_of_length_le (by omega)
    have e2 : 64 * ((sha1.curlen + rest.length) / 64 + 1) - X.length
        = 64 * ((sha1.curlen + rest.length) / 64) := by omega
    rw [List.flatten_cons, h1, hp, hq, List.take_append_eq_append_take, e1, e2]
  · rw [List.length_cons, h2, hq]
  · intro b hb
    rcases List.mem_cons.mp hb with e | e
    · rw [e]; exact hX
    · exact h3 b e

theorem write_loop_calls_spec : ∀ (fuel : Nat) (sha : Sha_256) (data : List Nat),
    data.length ≤ fuel → sha.curlen ≤ 63 → sha.buffer.length = 64 →
    CallsSpec sha data (write_loop_calls fuel sha data) := by
  intro fuel
  induction fuel with
  | zero =>
    intro sha data hf hc _
    have : data = [] := List.length_eq_zero.mp (by omega)
    subst this
    rw [write_loop_calls_nil]; exact callsSpec_nil sha hc
  | succ fuel ih =>
    intro sha data hf hc hb
    by_cases hd : data = []
    · subst hd; rw [write_loop_calls_nil]; exact callsSpec_nil sha hc
    · have hpos : 0 < data.length := List.length_pos.mpr hd
      rw [write_loop_calls_succ _ _ _ hd]
      by_cases hfast : sha.curlen = 0 ∧ 64 ≤ data.length
      · rw [write_step_fast sha data hfast.1 hfast.2, write_step_calls_fast sha data hfast.1 hfast.2]
        refine callsSpec_cons sha _ data (data.drop 64) (data.take 64) _ ?_ ?_ ?_
          (ih _ _ (by simp; omega) hc hb)
        · simp; omega
        · simp [pending, hfast.1]
        · simp only [List.length_drop]; omega
      · by_cases hn : 64 - sha.curlen ≤ data.length
        · have hX : (sha.buffer.take sha.curlen ++ data.take (64 - sha.curlen)).length = 64 := by
            simp; omega
          have hm : (memcpy sha.buffer sha.curlen data (64 - sha.curlen)).take 64
              = sha.buffer.take sha.curlen ++ data.take (64 - sha.curlen) := by
            unfold memcpy; exact List.take_left' hX
          rw [write_step_full sha data hc hfast hn, write_step_calls_full sha data hc hfast hn, hm]
          refine callsSpec_cons sha _ data (data.drop (64 - sha.curlen)) _ _ hX ?_ ?_
            (ih _ _ (by simp; omega) (Nat.zero_le _) ?_)
          · simp [pending]
          · simp only [List.length_drop]; omega
          · show (memcpy sha.buffer sha.curlen data (64 - sha.curlen)).length = 64
            rw [memcpy_length _ _ _ _ (by omega) hn, hb]
        · rw [write_step_part sha data hc (by omega), write_step_calls_part sha data hc (by omega),
            write_loop_calls_nil]
          have hq : (sha.curlen + data.length) / 64 = 0 := by omega
          constructor
          · rw [hq]; simp
          · rw [hq]; rfl
          · intro b hb'; cases hb'

theorem write_calls_spec (sha : Sha_256) (data : List Nat) (hc : sha.curlen ≤ 63)
    (hb : sha.buffer.length = 64) : CallsSpec sha data (write_calls sha data) :=
  write_loop_calls_spec _ sha data (Nat.le_succ _) hc hb

/-- The calls of two writers in a row are the calls of one writer on the
concatenated input. -/
theorem callsSpec_trans (sha r1 : Sha_256) (D1 D2 : List Nat) (c1 c2 : List (List Nat))
    (hc : sha.curlen ≤ 63) (hb : sha.buffer.length = 64) (hw : WriteSpec sha D1 r1)
    (h1 : CallsSpec sha D1 c1) (h2 : CallsSpec r1 D2 c2) :
    CallsSpec sha (D1 ++ D2) (c1 ++ c2) := by
  obtain ⟨_, a2, _, a4, _⟩ := hw
  obtain ⟨f1, n1, b1⟩ := h1
  obtain ⟨f2, n2, b2⟩ := h2
  have hlen := pending_length sha D1 hc hb
  have hq : (sha.curlen + (D1 ++ D2).length) / 64
      = (sha.curlen + D1.length) / 64 + (r1.curlen + D2.length) / 64 := by
    rw [a2, List.length_append]; omega
  have hp : pending sha (D1 ++ D2) = pending sha D1 ++ D2 := by simp [pending]
  have hp2 : pending r1 D2
      = (pending sha (D1 ++ D2)).drop (64 * ((sha.curlen + D1.length) / 64)) := by
    rw [hp, List.drop_append_of_le_length (by omega), ← a4]; rfl
  have ht : (pending sha D1).take (64 * ((sha.curlen + D1.length) / 64))
      = (pending sha (D1 ++ D2)).take (64 * ((sha.curlen + D1.length) / 64)) := by
    rw [hp, List.take_append_of_le_length (by omega)]
  constructor
  · rw [List.flatten_append, f1, f2, hp2, ht, hq, Nat.mul_add, List.take_add]
  · rw [List.length_append, n1, n2, hq]
  · intro b hb'
    rcases List.mem_append.mp hb' with e | e
    · exact b1 b e
    · exact b2 b e

theorem close_pad_calls_spec : ∀ (fuel : Nat) (s : Sha_256), s.curlen ≤ 63 →
    s.buffer.length = 64 → (120 - s.curlen) % 64 < fuel →
    CallsSpec s (List.replicate ((120 - s.curlen) % 64) 0) (close_pad_calls fuel s) := by
  intro fuel
  induction fuel with
  | zero => intro s _ _ h; omega
  | succ fuel ih =>
    intro s hc hb hf
    by_cases h56 : s.curlen = 56
    · have hk : (120 - s.curlen) % 64 = 0 := by omega
      rw [hk]
      simp only [close_pad_calls, h56, ne_eq, not_true_eq_false, if_false, List.replicate_zero]
      exact callsSpec_nil s hc
    · have hw := write_spec s [0] hc hb
      have h1 : (sha_256_write s [0]).curlen = (s.curlen + 1) % 64 := by
        rw [write_curlen _ _ hc]; rfl
      have hk : (120 - s.curlen) % 64 = (120 - (sha_256_write s [0]).curlen) % 64 + 1 := by
        rw [h1]; omega
      have := ih (sha_256_write s [0]) (by rw [h1]; omega) hw.buflen (by omega)
      simp only [close_pad_calls, ne_eq, h56, not_false_eq_true, if_true]
      rw [hk, List.replicate_succ]
      exact callsSpec_trans s _ [0] _ _ _ hc hb hw (write_calls_spec s [0] hc hb) this

theorem close_calls_spec (sha : Sha_256) (hc : sha.curlen ≤ 63) (hb : sha.buffer.length = 64) :
    CallsSpec sha (close_bytes sha.curlen sha.length) (close_calls sha) := by
  have h1 := write_spec sha [0x80] hc hb
  have h1c : (sha_256_write sha [0x80]).curlen = (sha.curlen + 1) % 64 := by
    rw [write_curlen _ _ hc]; rfl
  have h1le : (sha_256_write sha [0x80]).curlen ≤ 63 := by rw [h1c]; omega
  have hk : (120 - (sha_256_write sha [0x80]).curlen) % 64 = (119 - sha.curlen) % 64 := by
    rw [h1c]; omega
  have hp := close_pad_iter 64 (sha_256_write sha [0x80]) h1le (by omega)
  have c2 := close_pad_calls_spec 64 (sha_256_write sha [0x80]) h1le h1.buflen (by omega)
  rw [hk] at hp c2
  have h2 := iter_zero_spec _ h1le h1.buflen ((119 - sha.curlen) % 64)
  have h12 := writeSpec_trans sha _ _ _ _ hc hb h1 h2
  have c12 := callsSpec_trans sha _ _ _ _ _ hc hb h1 (write_calls_spec sha [0x80] hc hb) c2
  have c3 := write_calls_spec _ (finalcount sha.length) (writeSpec_curlen_le _ _ _ h12)
    h12.buflen
  have c := callsSpec_trans sha _ _ _ _ _ hc hb h12 c12 c3
  unfold close_calls
  simp only [hp]
  exact c

theorem close_stream_length (c len : Nat) (hc : c ≤ 63) :
    (c + (close_bytes c len).length) / 64 = (if c ≤ 55 then 1 else 2) ∧
    (c + (close_bytes c len).length) % 64 = 0 := by
  rw [close_bytes_length]
  split <;> omega

/-- The number of calls of `sha_256_transform` in `sha_256_close`. -/
theorem close_calls_count (sha : Sha_256) (hc : sha.curlen ≤ 63) (hb : sha.buffer.length = 64) :
    (close_calls sha).length = if sha.curlen ≤ 55 then 1 else 2 := by
  rw [(close_calls_spec sha hc hb).count, (close_stream_length _ _ hc).1]

theorem run_calls_spec (sha0 : Sha_256) (data : List Nat) (hb : sha0.buffer.length = 64) :
    CallsSpec (sha_256_init sha0) (run_stream data) (run_calls sha0 data) := by
  have hw := write_spec (sha_256_init sha0) data (Nat.zero_le _) hb
  have hcur : (sha_256_write (sha_256_init sha0) data).curlen = data.length % 64 := by
    rw [write_curlen _ _ (Nat.zero_le _)]; simp [sha_256_init]
  have hlen : (sha_256_write (sha_256_init sha0) data).length = bump (data.length / 64) 0 := by
    rw [write_length _ _ (Nat.zero_le _)]; simp [sha_256_init]
  have hcl := close_calls_spec _ (writeSpec_curlen_le _ _ _ hw) hw.buflen
  rw [hcur, hlen] at hcl
  exact callsSpec_trans _ _ _ _ _ _ (Nat.zero_le _) hb hw
    (write_calls_spec _ data (Nat.zero_le _) hb) hcl

theorem run_stream_length (data : List Nat) :
    (run_stream data).length = 64 * ((data.length + 9 + (119 - data.length % 64) % 64) / 64) := by
  unfold run_stream
  rw [List.length_append, close_bytes_length]
  omega

/-- The blocks of a run, one after the other, are the bytes of its stream. -/
theorem run_calls_flatten (sha0 : Sha_256) (data : List Nat) (hb : sha0.buffer.length = 64) :
    (run_calls sha0 data).flatten = run_stream data := by
  have h := (run_calls_spec sha0 data hb).flatten
  have hp : pending (sha_256_init sha0) (run_stream data) = run_stream data := by
    simp [pending, sha_256_init]
  have hl := run_stream_length data
  rw [hp] at h
  rw [h]
  apply List.take_of_length_le
  have e : (sha_256_init sha0).curlen = 0 := rfl
  rw [e, Nat.zero_add]
  omega

/-! ## The padded stream determines the input -/

theorem run_stream_marker (data : List Nat) :
    (run_stream data).getD data.length 0 = 0x80 := by
  unfold run_stream close_bytes
  rw [List.getD_append_right _ _ _ _ (le_refl _), Nat.sub_self]
  rfl

theorem run_stream_zero (data : List Nat) (j : Nat) (h1 : data.length < j)
    (h2 : j + 8 < (run_stream data).length) : (run_stream data).getD j 0 = 0 := by
  have hl : (run_stream data).length = data.length + (9 + (119 - data.length % 64) % 64) := by
    unfold run_stream; rw [List.length_append, close_bytes_length]
  unfold run_stream close_bytes
  rw [List.getD_append_right _ _ _ _ (by omega), List.append_assoc,
    List.getD_append_right _ _ _ _ (by simp; omega),
    List.getD_append _ _ _ _ (by simp; omega)]
  simp only [List.getD_eq_getElem?_getD, List.getElem?_replicate]
  split <;> rfl

theorem run_stream_lt (S T : List Nat) (hlt : S.length < T.length) :
    run_stream S ≠ run_stream T := by
  intro h
  have hl : (run_stream T).length = T.length + (9 + (119 - T.length % 64) % 64) := by
    unfold run_stream; rw [List.length_append, close_bytes_length]
  have h0 := run_stream_zero S T.length hlt (by rw [h, hl]; omega)
  rw [h, run_stream_marker] at h0
  exact absurd h0 (by decide)

/-- Two inputs with the same padded stream are the same input. -/
theorem run_stream_injective (S T : List Nat) (h : run_stream S = run_stream T) : S = T := by
  rcases Nat.lt_trichotomy S.length T.length with hlt | heq | hgt
  · exact absurd h (run_stream_lt S T hlt)
  · unfold run_stream at h
    exact (List.append_inj h heq).1
  · exact absurd h.symm (run_stream_lt T S hgt)

/-! ## A run against FIPS 180-4 -/

/-- The array `finalcount` holds the big-endian bytes of `length`. -/
theorem finalcount_eq (len : Nat) : finalcount len = FIPS.be_bytes 8 len := by
  have h255 : (255 : Nat) = 2 ^ 8 - 1 := by norm_num
  unfold finalcount FIPS.be_bytes
  simp only [h255, Nat.and_pow_two_sub_one_eq_mod, Nat.shiftRight_eq_div_pow, Nat.mod_mod]
  simp [List.range_succ]

theorem fips_compress_length (H block : List Nat) : (FIPS.compress H block).length = 8 := rfl

theorem fips_compress_lt (H block : List Nat) : ∀ x ∈ FIPS.compress H block, x < 2 ^ 32 := by
  have hm : ∀ n : Nat, n % 2 ^ 32 < 2 ^ 32 := fun n => Nat.mod_lt _ (by norm_num)
  intro x hx
  simp only [FIPS.compress, List.mem_cons, List.mem_singleton, List.not_mem_nil, or_false] at hx
  rcases hx with h | h | h | h | h | h | h | h <;> rw [h] <;> exact hm _

theorem bytes_take (p : List Nat) (n : Nat) (h : Bytes p) : Bytes (p.take n) :=
  fun x hx => h x (List.mem_of_mem_take hx)

theorem bytes_drop (p : List Nat) (n : Nat) (h : Bytes p) : Bytes (p.drop n) :=
  fun x hx => h x (List.mem_of_mem_drop hx)

theorem compress_words_take (st p : List Nat) :
    compress_words st p = compress_words st (p.take 64) := by
  apply compress_words_congr
  intro k hk
  simp only [List.getD_eq_getElem?_getD, List.getElem?_take, hk, if_true]

/-- The blocks compressed by the code are compressed as FIPS 180-4 says. -/
theorem absorb_eq (n : Nat) (st p : List Nat) (hl : st.length = 8)
    (hw : ∀ x ∈ st, x < 2 ^ 32) (hB : Bytes p) :
    absorb n st p = FIPS.hash_blocks n st p := by
  induction n generalizing st p with
  | zero => rfl
  | succ n ih =>
    rw [absorb_succ, compress_words_take, compress_words_eq _ _ hl hw (bytes_take p 64 hB)]
    exact ih _ _ (fips_compress_length _ _) (fips_compress_lt _ _) (bytes_drop p 64 hB)

theorem hash_blocks_length (n : Nat) (H p : List Nat) (hl : H.length = 8) :
    (FIPS.hash_blocks n H p).length = 8 := by
  induction n generalizing H p with
  | zero => exact hl
  | succ n ih => exact ih _ _ (fips_compress_length _ _)

theorem state_bytes_eq (st : List Nat) (hl : st.length = 8) :
    state_bytes st 8 = st.flatMap (FIPS.be_bytes 4) := by
  match st, hl with
  | [s0, s1, s2, s3, s4, s5, s6, s7], _ =>
    simp [state_bytes, List.range_succ, word_bytes_eq]

theorem bytes_run_stream (data : List Nat) (hB : Bytes data) : Bytes (run_stream data) := by
  intro x hx
  unfold run_stream close_bytes at hx
  simp only [List.mem_append, List.mem_singleton] at hx
  rcases hx with h | (h | h) | h
  · exact hB x h
  · rw [h]; norm_num
  · rw [(List.mem_replicate.mp h).2]; norm_num
  · unfold finalcount at h
    obtain ⟨i, _, rfl⟩ := List.mem_map.mp h
    exact Nat.mod_lt _ (by norm_num)

/-- What a run leaves in `buffer[0..32)`: the hash value of FIPS 180-4 over
the blocks of the stream that the code pads. -/
theorem run_digest (sha0 : Sha_256) (data : List Nat) (hb : sha0.buffer.length = 64)
    (hB : Bytes data) :
    hash_chunks sha0 [data] = some ((FIPS.hash_blocks ((run_stream data).length / 64) FIPS.H0
      (run_stream data)).flatMap (FIPS.be_bytes 4)) := by
  have hw := write_spec (sha_256_init sha0) data (Nat.zero_le _) hb
  have hcur : (sha_256_write (sha_256_init sha0) data).curlen = data.length % 64 := by
    rw [write_curlen _ _ (Nat.zero_le _)]; simp [sha_256_init]
  have hlen : (sha_256_write (sha_256_init sha0) data).length = bump (data.length / 64) 0 := by
    rw [write_length _ _ (Nat.zero_le _)]; simp [sha_256_init]
  have hcw := close_written_spec _ (writeSpec_curlen_le _ _ _ hw) hw.buflen
  rw [hcur, hlen] at hcw
  have ht := writeSpec_trans (sha_256_init sha0) _ _ _ _ (Nat.zero_le _) hb hw hcw
  have hst := ht.state
  have hp : pending (sha_256_init sha0) (data ++ close_bytes (data.length % 64)
      (bump (data.length / 64) 0)) = run_stream data := by
    simp [pending, sha_256_init, run_stream]
  have e0 : (sha_256_init sha0).curlen = 0 := rfl
  have e1 : (data ++ close_bytes (data.length % 64) (bump (data.length / 64) 0)).length
      = (run_stream data).length := rfl
  rw [hp, e0, Nat.zero_add, e1] at hst
  have hd := close_digest _ (writeSpec_curlen_le _ _ _ hw) hw.buflen
  unfold hash_chunks
  simp only [List.foldl_cons, List.foldl_nil]
  rw [hd, hst]
  have hIV : (sha_256_init sha0).state = FIPS.H0 := rfl
  have hH : FIPS.H0.length = 8 := rfl
  rw [hIV, absorb_eq _ FIPS.H0 _ hH (by decide) (bytes_run_stream data hB),
    state_bytes_eq _ (hash_blocks_length _ FIPS.H0 _ hH)]

theorem run_stream_whole_blocks (data : List Nat) (h64 : data.length % 64 = 0)
    (hN : data.length < 2 ^ 61) : run_stream data = FIPS.pad data := by
  have hz : (64 - (data.length + 9) % 64) % 64 = 55 := by omega
  have hL : bump (data.length / 64) 0 = 8 * data.length := by
    rw [bump_eq _ _ (by norm_num)]; omega
  unfold run_stream close_bytes FIPS.pad
  rw [h64, hL, hz, finalcount_eq]
  simp

/-! ## Whole blocks on the fast path -/

theorem write_loop_calls_fuel_irrel : ∀ (fuel1 fuel2 : Nat) (sha : Sha_256) (data : List Nat),
    data.length ≤ fuel1 → data.length ≤ fuel2 → sha.curlen ≤ 63 →
    write_loop_calls fuel1 sha data = write_loop_calls fuel2 sha data := by
  intro fuel1
  induction fuel1 with
  | zero =>
    intro fuel2 sha data h1 _ _
    have : data = [] := List.length_eq_zero.mp (by omega)
    subst this
    rw [write_loop_calls_nil, write_loop_calls_nil]
  | succ fuel1 ih =>
    intro fuel2 sha data h1 h2 hc
    by_cases hd : data = []
    · subst hd; rw [write_loop_calls_nil, write_loop_calls_nil]
    · have hpos : 0 < data.length := List.length_pos.mpr hd
      obtain ⟨f2, rfl⟩ : ∃ f2, fuel2 = f2 + 1 := ⟨fuel2 - 1, by omega⟩
      have hp := write_step_progress sha data hc hd
      rw [write_loop_calls_succ _ _ _ hd, write_loop_calls_succ _ _ _ hd]
      rw [ih f2 _ _ (by omega) (by omega) hp.2]

theorem write_calls_unfold (sha : Sha_256) (data : List Nat) (hc : sha.curlen ≤ 63)
    (hd : data ≠ []) :
    write_calls sha data = write_step_calls sha data
      ++ write_calls (sha_256_write_step sha data).1 (sha_256_write_step sha data).2 := by
  have hp := write_step_progress sha data hc hd
  unfold write_calls
  rw [write_loop_calls_succ _ _ _ hd]
  rw [write_loop_calls_fuel_irrel _ _ _ _ (by omega) (Nat.le_succ _) hp.2]

theorem foldl_transform_length (blocks : List (List Nat)) (sha : Sha_256) (x : Nat) :
    blocks.foldl sha_256_transform { sha with length := x }
      = { blocks.foldl sha_256_transform sha with length := x } := by
  induction blocks generalizing sha with
  | nil => rfl
  | cons b bs ih =>
    simp only [List.foldl_cons]
    exact ih (sha_256_transform sha b)

theorem foldl_transform_frame (blocks : List (List Nat)) (sha : Sha_256) :
    (blocks.foldl sha_256_transform sha).buffer = sha.buffer ∧
    (blocks.foldl sha_256_transform sha).curlen = sha.curlen ∧
    (blocks.foldl sha_256_transform sha).length = sha.length := by
  induction blocks generalizing sha with
  | nil => exact ⟨rfl, rfl, rfl⟩
  | cons b bs ih =>
    simp only [List.foldl_cons]
    exact ih (sha_256_transform sha b)

/-- An input of whole blocks on an empty buffer goes block by block through
`sha_256_transform`; nothing else changes but `length`. -/
theorem write_whole_blocks : ∀ (blocks : List (List Nat)) (sha : Sha_256), sha.curlen = 0 →
    (∀ b ∈ blocks, b.length = 64) →
    sha_256_write sha blocks.flatten
      = { blocks.foldl sha_256_transform sha with length := bump blocks.length sha.length } ∧
    write_calls sha blocks.flatten = blocks := by
  intro blocks
  induction blocks with
  | nil =>
    intro sha _ _
    exact ⟨by simp [sha_256_write, sha_256_write_loop, bump], by
      simp [write_calls, write_loop_calls]⟩
  | cons b bs ih =>
    intro sha h0 h64
    have hb : b.length = 64 := h64 b (List.mem_cons_self _ _)
    have hlen : 64 ≤ (b :: bs).flatten.length := by simp; omega
    have hne : (b :: bs).flatten ≠ [] := by
      intro h; rw [h] at hlen; simp at hlen
    have hdrop : (b :: bs).flatten.drop 64 = bs.flatten := by
      rw [List.flatten_cons]; exact List.drop_left' hb
    have htake : (b :: bs).flatten.take 64 = b := by
      rw [List.flatten_cons]; exact List.take_left' hb
    have hcw : compress_words sha.state (b :: bs).flatten = compress_words sha.state b := by
      rw [compress_words_take, htake]
    have hstep := write_step_fast sha _ h0 hlen
    rw [hcw, hdrop] at hstep
    have h1 := ih { sha with state := compress_words sha.state b,
                             length := (sha.length + 512) % 2 ^ 64 } h0
      (fun x hx => h64 x (List.mem_cons_of_mem _ hx))
    constructor
    · rw [sha_256_write_unfold sha _ (by omega) hne, hstep]
      simp only
      rw [h1.1, List.foldl_cons, List.length_cons, bump_succ, transform_eq]
      exact congrArg (fun s : Sha_256 => { s with length := bump bs.length ((sha.length + 512) % 2 ^ 64) })
        (foldl_transform_length bs { sha with state := compress_words sha.state b } _)
    · rw [write_calls_unfold sha _ (by omega) hne, write_step_calls_fast sha _ h0 hlen, hstep,
        htake]
      simp only
      rw [h1.2]
      rfl

/-! ## The primes behind the constants -/

theorem is_prime_iff (n : Nat) : is_prime n = true ↔ Nat.Prime n := by
  rw [Nat.prime_def_lt]
  unfold is_prime
  simp only [Bool.and_eq_true, decide_eq_true_eq, List.all_eq_true, List.mem_range,
    Bool.or_eq_true, ne_eq]
  constructor
  · rintro ⟨h2, h⟩
    refine ⟨h2, fun m hm hd => ?_⟩
    rcases h m hm with h1 | h1
    · have : m ≠ 0 := by
        rintro rfl
        have := Nat.eq_zero_of_zero_dvd hd
        omega
      omega
    · exact absurd (Nat.mod_eq_zero_of_dvd hd) h1
  · rintro ⟨h2, h⟩
    refine ⟨h2, fun m hm => ?_⟩
    by_cases hd : n % m = 0
    · left
      have := h m hm (Nat.dvd_of_mod_eq_zero hd)
      omega
    · right; exact hd

theorem mem_primes_below (n p : Nat) : p ∈ primes_below n ↔ Nat.Prime p ∧ p < n := by
  unfold primes_below
  rw [List.mem_filter, List.mem_range, is_prime_iff, and_comm]

theorem primes_below_sorted (n : Nat) : (primes_below n).Pairwise (· < ·) :=
  List.Pairwise.sublist (List.filter_sublist _) (List.pairwise_lt_range n)

/-- The primes below 312 are the first 64 primes. -/
theorem primes_312 : primes_below 312 =
    [2, 3, 5, 7, 11, 13, 17, 19, 23, 29, 31, 37, 41, 43, 47, 53, 59, 61, 67, 71, 73, 79, 83, 89, 97,
     101, 103, 107, 109, 113, 127, 131, 137, 139, 149, 151, 157, 163, 167, 173, 179, 181, 191,
     193, 197, 199, 211, 223, 227, 229, 233, 239, 241, 251, 257, 263, 269, 271, 277, 281, 283,
     293, 307, 311] := by
  set_option maxRecDepth 100000 in decide

/-! ## The slices of an input of whole blocks -/

theorem blocks_of_spec : ∀ (n : Nat) (data : List Nat), data.length = 64 * n →
    (blocks_of data).flatten = data ∧ (blocks_of data).length = n ∧
      ∀ b ∈ blocks_of data, b.length = 64 := by
  intro n
  induction n with
  | zero =>
    intro data h
    have : data = [] := List.length_eq_zero.mp (by omega)
    subst this
    exact ⟨rfl, rfl, fun b hb => by cases hb⟩
  | succ n ih =>
    intro data h
    have hq : data.length / 64 = n + 1 := by omega
    have hd : (data.drop 64).length = 64 * n := by simp; omega
    have hq' : (data.drop 64).length / 64 = n := by omega
    have e : blocks_of data = data.take 64 :: blocks_of (data.drop 64) := by
      unfold blocks_of
      rw [hq, hq', List.range_succ_eq_map, List.map_cons, List.map_map]
      simp only [Nat.mul_zero, List.drop_zero, List.drop_drop]
      congr 1
      apply List.map_congr_left
      intro i _
      simp only [Function.comp, Nat.succ_eq_add_one]
      congr 2
      omega
    obtain ⟨h1, h2, h3⟩ := ih (data.drop 64) hd
    rw [e]
    refine ⟨?_, ?_, ?_⟩
    · rw [List.flatten_cons, h1, List.take_append_drop]
    · rw [List.length_cons, h2]
    · intro b hb
      rcases List.mem_cons.mp hb with e' | e'
      · rw [e']; simp; omega
      · exact h3 b e'

/-! ## The state that `sha_256_close` returns -/

theorem close_result (sha : Sha_256) (hc : sha.curlen ≤ 63) (hb : sha.buffer.length = 64) :
    ∃ s, sha_256_close sha = some s ∧ s.curlen = 0 ∧ s.buffer.length = 64 ∧
      s.state = (close_written sha).state ∧ s.length = (close_written sha).length := by
  refine ⟨_, close_spec sha hc hb, close_written_curlen sha hc, ?_, rfl, rfl⟩
  show (state_bytes (close_written sha).state 8 ++ (close_written sha).buffer.drop 32).length = 64
  rw [List.length_append, state_bytes_length, List.length_drop,
    (close_written_spec sha hc hb).buflen]

/-! ## The length field (C11) -/

theorem finalcount_sum (len : Nat) (h : len < 2 ^ 64) :
    ((List.range 8).map fun i => (finalcount len).getD i 0 * 256 ^ (7 - i)).sum = len := by
  have h255 : (255 : Nat) = 2 ^ 8 - 1 := by norm_num
  unfold finalcount
  simp only [h255, Nat.and_pow_two_sub_one_eq_mod, Nat.shiftRight_eq_div_pow, Nat.mod_mod]
  simp [List.range_succ]
  omega

theorem close_calls_flatten (sha : Sha_256) (hc : sha.curlen ≤ 63)
    (hb : sha.buffer.length = 64) :
    (close_calls sha).flatten
      = sha.buffer.take sha.curlen ++ close_bytes sha.curlen sha.length := by
  have h := (close_calls_spec sha hc hb).flatten
  have hl := pending_length sha (close_bytes sha.curlen sha.length) hc hb
  have hm := (close_stream_length sha.curlen sha.length hc).2
  rw [h]
  exact List.take_of_length_le (by omega)

/-- C11: no truncation of the bit-length field.  For every 64-bit value `L` of
`length` at entry to `sha_256_close`, the bytes `finalcount[0..7]` are the
big-endian encoding of `L`: the sum of `finalcount[i] * 256^(7-i)` is `L`.
They are what `sha_256_close` writes last, from `curlen = 56`, and so the last
8 bytes of the blocks passed to `sha_256_transform`; `L` is read before any
padding byte is written. -/
theorem finalcount_no_truncation (sha : Sha_256) (hc : sha.curlen ≤ 63)
    (hb : sha.buffer.length = 64) (hL : sha.length < 2 ^ 64) :
    ((List.range 8).map fun i => (finalcount sha.length).getD i 0 * 256 ^ (7 - i)).sum
      = sha.length ∧
    finalcount sha.length = FIPS.be_bytes 8 sha.length ∧
    (∃ s, s.curlen = 56 ∧ sha_256_close sha
      = some ((List.range 8).foldl store_step (sha_256_write s (finalcount sha.length)))) ∧
    (close_calls sha).flatten = sha.buffer.take sha.curlen ++ [0x80]
      ++ List.replicate ((55 + 64 - sha.curlen) % 64) 0 ++ finalcount sha.length := by
  refine ⟨finalcount_sum _ hL, finalcount_eq _, ?_, ?_⟩
  · have h1 : (sha_256_write sha [0x80]).curlen = (sha.curlen + 1) % 64 := by
      rw [write_curlen _ _ hc]; rfl
    refine ⟨(fun s => sha_256_write s [0])^[(119 - sha.curlen) % 64]
      (sha_256_write sha [0x80]), ?_, close_eq sha hc⟩
    rw [iter_zero_curlen _ (by rw [h1]; omega), h1]
    omega
  · rw [close_calls_flatten sha hc hb]
    simp [close_bytes]

/-- Witness of C11: `length = 2^64 - 512`, which needs all 8 bytes. -/
theorem finalcount_no_truncation_witness :
    ({ blank with length := 2 ^ 64 - 512 } : Sha_256).curlen ≤ 63 ∧
    ({ blank with length := 2 ^ 64 - 512 } : Sha_256).buffer.length = 64 ∧
    ({ blank with length := 2 ^ 64 - 512 } : Sha_256).length < 2 ^ 64 ∧
    ((List.range 8).map fun i => (finalcount (2 ^ 64 - 512)).getD i 0 * 256 ^ (7 - i)).sum
      = 2 ^ 64 - 512 :=
  ⟨by decide, rfl, by decide,
   (finalcount_no_truncation { blank with length := 2 ^ 64 - 512 } (by decide) rfl
      (by decide)).1⟩

/-! ## Write accounting (C12) -/

/-- C12: write accounting.  From a state with `curlen = c ≤ 63` and
`length = L`, `sha_256_write` of `n` bytes leaves `curlen = (c + n) mod 64` and
`length = (L + 512 * floor((c + n) / 64)) mod 2^64`: 512 per block compressed,
on either path, and nothing else. -/
theorem write_accounting (sha : Sha_256) (data : List Nat) (hc : sha.curlen ≤ 63)
    (hL : sha.length < 2 ^ 64) :
    (sha_256_write sha data).curlen = (sha.curlen + data.length) % 64 ∧
    (sha_256_write sha data).length
      = (sha.length + 512 * ((sha.curlen + data.length) / 64)) % 2 ^ 64 := by
  refine ⟨write_curlen sha data hc, ?_⟩
  rw [write_length sha data hc, bump_eq _ _ hL]

/-- Witness of C12: 70 bytes from `curlen = 10` and `length = 2^64 - 512`,
where one block is compressed and the counter wraps to 0. -/
theorem write_accounting_witness :
    ({ blank with curlen := 10, length := 2 ^ 64 - 512 } : Sha_256).curlen ≤ 63 ∧
    ({ blank with curlen := 10, length := 2 ^ 64 - 512 } : Sha_256).length < 2 ^ 64 ∧
    (sha_256_write { blank with curlen := 10, length := 2 ^ 64 - 512 }
      (List.replicate 70 7)).curlen = 16 ∧
    (sha_256_write { blank with curlen := 10, length := 2 ^ 64 - 512 }
      (List.replicate 70 7)).length = 0 :=
  ⟨by decide, by decide,
   write_accounting { blank with curlen := 10, length := 2 ^ 64 - 512 } (List.replicate 70 7)
    (by decide) (by decide)⟩

/-! ## The constants (C13, C14) -/

/-- C13: `sha_256_init` sets `curlen = 0`, `length = 0` and the 8 state words to
the first 32 bits of the fractional parts of the square roots of the first 8
primes, the primes below 20: with `r` the integer square root of the prime `p`
and `v = r * 2^32 + state[i]`, `state[i] < 2^32` and
`v^2 ≤ p * 2^64 < (v + 1)^2`.  The buffer is not touched. -/
theorem init_state_is_iv (sha0 : Sha_256) :
    (sha_256_init sha0).curlen = 0 ∧ (sha_256_init sha0).length = 0 ∧
    (sha_256_init sha0).buffer = sha0.buffer ∧ (sha_256_init sha0).state.length = 8 ∧
    primes_below 20 = [2, 3, 5, 7, 11, 13, 17, 19] ∧
    (∀ p, p ∈ primes_below 20 ↔ Nat.Prime p ∧ p < 20) ∧
    ∀ i, i < 8 → ∃ r, r < 5 ∧
      r ^ 2 ≤ (primes_below 20).getD i 0 ∧ (primes_below 20).getD i 0 < (r + 1) ^ 2 ∧
      (sha_256_init sha0).state.getD i 0 < 2 ^ 32 ∧
      (r * 2 ^ 32 + (sha_256_init sha0).state.getD i 0) ^ 2
        ≤ (primes_below 20).getD i 0 * 2 ^ 64 ∧
      (primes_below 20).getD i 0 * 2 ^ 64
        < (r * 2 ^ 32 + (sha_256_init sha0).state.getD i 0 + 1) ^ 2 := by
  have hp : primes_below 20 = [2, 3, 5, 7, 11, 13, 17, 19] := by decide
  have hs : (sha_256_init sha0).state
      = [0x6a09e667, 0xbb67ae85, 0x3c6ef372, 0xa54ff53a,
         0x510e527f, 0x9b05688c, 0x1f83d9ab, 0x5be0cd19] := rfl
  refine ⟨rfl, rfl, rfl, rfl, hp, fun p => mem_primes_below 20 p, ?_⟩
  rw [hp, hs]
  decide

/-- C14: each round constant `K[i]` is the first 32 bits of the fractional part
of the cube root of the `(i+1)`-th prime, the primes below 312 being the first
64 primes `2, 3, 5, …, 311`: with `r` the integer cube root of the prime `p` and
`v = r * 2^32 + K[i]`, `K[i] < 2^32` and `v^3 ≤ p * 2^96 < (v + 1)^3`. -/
theorem K_is_cube_roots :
    K.length = 64 ∧ (primes_below 312).length = 64 ∧
    (primes_below 312).getD 0 0 = 2 ∧ (primes_below 312).getD 63 0 = 311 ∧
    (∀ p, p ∈ primes_below 312 ↔ Nat.Prime p ∧ p < 312) ∧
    (primes_below 312).Pairwise (· < ·) ∧
    ∀ i, i < 64 → ∃ r, r < 8 ∧
      r ^ 3 ≤ (primes_below 312).getD i 0 ∧ (primes_below 312).getD i 0 < (r + 1) ^ 3 ∧
      K.getD i 0 < 2 ^ 32 ∧
      (r * 2 ^ 32 + K.getD i 0) ^ 3 ≤ (primes_below 312).getD i 0 * 2 ^ 96 ∧
      (primes_below 312).getD i 0 * 2 ^ 96 < (r * 2 ^ 32 + K.getD i 0 + 1) ^ 3 := by
  refine ⟨rfl, ?_, ?_, ?_, fun p => mem_primes_below 312 p, primes_below_sorted 312, ?_⟩
  · rw [primes_312]; rfl
  · rw [primes_312]; rfl
  · rw [primes_312]; rfl
  · rw [primes_312]
    set_option maxRecDepth 100000 in decide

/-! ## After `sha_256_close` (C15) -/

/-- C15 as stated fails: on the state that `sha_256_close` leaves after
`sha_256_init`, a write of one byte returns a different state, and a second
`sha_256_close` returns a state, again a different one. -/
theorem write_after_close_counterexample :
    (sha_256_close (sha_256_init blank)).map (fun s => sha_256_write s [0x61])
      ≠ sha_256_close (sha_256_init blank) ∧
    (sha_256_close (sha_256_init blank)).bind sha_256_close ≠ none ∧
    (sha_256_close (sha_256_init blank)).bind sha_256_close
      ≠ sha_256_close (sha_256_init blank) := by
  set_option maxRecDepth 100000 in decide

/-- C15, amended: the code keeps no record that a state has been through
`sha_256_close`.  `sha_256_close` leaves `curlen = 0`; a following
`sha_256_write` of `n` bytes returns the state with `curlen = n mod 64` whose
words are the final state words after compressing the whole blocks of the new
bytes, and a second `sha_256_close` returns the state whose words are the
final state words after compressing one more padding block. -/
theorem close_leaves_ordinary_state (sha : Sha_256) (data : List Nat) (hc : sha.curlen ≤ 63)
    (hb : sha.buffer.length = 64) :
    ∃ s, sha_256_close sha = some s ∧ s.curlen = 0 ∧
      (sha_256_write s data).curlen = data.length % 64 ∧
      (sha_256_write s data).state = absorb (data.length / 64) s.state data ∧
      ∃ s2, sha_256_close s = some s2 ∧
        s2.state = compress_words s.state (close_bytes 0 s.length) := by
  obtain ⟨s, hs, hs0, hsb, _, _⟩ := close_result sha hc hb
  have hsc : s.curlen ≤ 63 := by omega
  refine ⟨s, hs, hs0, ?_, ?_, ?_⟩
  · rw [write_curlen s data hsc, hs0, Nat.zero_add]
  · have hst := (write_spec s data hsc hsb).state
    rw [hs0, Nat.zero_add] at hst
    rw [hst]
    simp [pending, hs0]
  · obtain ⟨s2, h2, _, _, h2s, _⟩ := close_result s hsc hsb
    refine ⟨s2, h2, ?_⟩
    have hq : (0 + (close_bytes 0 s.length).length) / 64 = 1 := by
      rw [close_bytes_length]
    have hp : pending s (close_bytes 0 s.length) = close_bytes 0 s.length := by
      simp [pending, hs0]
    have hst := (close_written_spec s hsc hsb).state
    rw [hs0, hq, hp] at hst
    rw [h2s, hst]
    rfl

/-- Witness of C15, amended: two bytes written after `sha_256_init` and
`sha_256_close`. -/
theorem close_leaves_ordinary_state_witness :
    (sha_256_init blank).curlen ≤ 63 ∧ (sha_256_init blank).buffer.length = 64 ∧
    ∃ s, sha_256_close (sha_256_init blank) = some s ∧ s.curlen = 0 ∧
      (sha_256_write s [1, 2]).curlen = [1, 2].length % 64 ∧
      (sha_256_write s [1, 2]).state = absorb ([1, 2].length / 64) s.state [1, 2] ∧
      ∃ s2, sha_256_close s = some s2 ∧
        s2.state = compress_words s.state (close_bytes 0 s.length) :=
  ⟨by decide, rfl, close_leaves_ordinary_state (sha_256_init blank) [1, 2] (by decide) rfl⟩

/-! ## The number of padding blocks (C16) -/

/-- C16: the padding-block boundary.  From a state with `curlen = c ≤ 63`,
`sha_256_close` calls `sha_256_transform` once when `c ≤ 55` and twice when
`56 ≤ c ≤ 63`, and `length` after the call is `length` before plus 512,
respectively 1024, modulo `2^64`; a run on an input of at most 55 bytes makes
one call in all, a run on 56 to 63 bytes two. -/
theorem close_compression_count (sha : Sha_256) (hc : sha.curlen ≤ 63)
    (hb : sha.buffer.length = 64) (hL : sha.length < 2 ^ 64) :
    (close_calls sha).length = (if sha.curlen ≤ 55 then 1 else 2) ∧
    (∃ s, sha_256_close sha = some s ∧
      s.length = (sha.length + (if sha.curlen ≤ 55 then 512 else 1024)) % 2 ^ 64) ∧
    ∀ (sha0 : Sha_256) (data : List Nat), sha0.buffer.length = 64 → data.length ≤ 63 →
      (run_calls sha0 data).length = if data.length ≤ 55 then 1 else 2 := by
  refine ⟨close_calls_count sha hc hb, ⟨_, close_spec sha hc hb, ?_⟩, ?_⟩
  · show (close_written sha).length = _
    rw [(close_written_spec sha hc hb).length, (close_stream_length _ _ hc).1, bump_eq _ _ hL]
    split <;> rfl
  · intro sha0 data hb0 hd
    have h := (run_calls_spec sha0 data hb0).count
    have hl := run_stream_length data
    have e : (sha_256_init sha0).curlen = 0 := rfl
    rw [h, e, Nat.zero_add, hl]
    split <;> omega

/-- Witness of C16: `curlen = 56`, the first value with two calls. -/
theorem close_compression_count_witness :
    ({ blank with curlen := 56 } : Sha_256).curlen ≤ 63 ∧
    ({ blank with curlen := 56 } : Sha_256).buffer.length = 64 ∧
    ({ blank with curlen := 56 } : Sha_256).length < 2 ^ 64 ∧
    (close_calls { blank with curlen := 56 }).length = 2 :=
  ⟨by decide, rfl, by decide,
   (close_compression_count { blank with curlen := 56 } (by decide) rfl (by decide)).1⟩

/-! ## No buffering on the fast path (C17) -/

/-- C17: no buffering on the fast path.  From a state with `curlen = 0`, on an
input whose length is a positive multiple of 64, `sha_256_write` leaves every
byte of `buffer` unchanged and `curlen = 0`; it passes the successive 64-byte
slices of the input to `sha_256_transform`, and the new state words are the
result of these calls in order. -/
theorem fast_path_no_buffering (sha : Sha_256) (data : List Nat) (h0 : sha.curlen = 0)
    (hpos : 0 < data.length) (h64 : data.length % 64 = 0) :
    (sha_256_write sha data).buffer = sha.buffer ∧
    (sha_256_write sha data).curlen = 0 ∧
    (sha_256_write sha data).state = ((blocks_of data).foldl sha_256_transform sha).state ∧
    write_calls sha data = blocks_of data ∧
    (blocks_of data).flatten = data ∧ (blocks_of data).length = data.length / 64 ∧
    (∀ b ∈ blocks_of data, b.length = 64) := by
  have _ := hpos
  obtain ⟨f1, f2, f3⟩ := blocks_of_spec (data.length / 64) data (by omega)
  have h := write_whole_blocks (blocks_of data) sha h0 f3
  rw [f1] at h
  have hf := foldl_transform_frame (blocks_of data) sha
  rw [h.1]
  exact ⟨hf.1, hf.2.1.trans h0, rfl, h.2, f1, f2, f3⟩

/-- Witness of C17: exactly 64 bytes after `sha_256_init`. -/
theorem fast_path_no_buffering_witness :
    (sha_256_init blank).curlen = 0 ∧ 0 < (List.replicate 64 0x61).length ∧
    (List.replicate 64 0x61).length % 64 = 0 ∧
    (sha_256_write (sha_256_init blank) (List.replicate 64 0x61)).buffer
      = (sha_256_init blank).buffer ∧
    (sha_256_write (sha_256_init blank) (List.replicate 64 0x61)).curlen = 0 :=
  ⟨rfl, by decide, by decide,
   (fast_path_no_buffering (sha_256_init blank) (List.replicate 64 0x61) rfl (by decide)
      (by decide)).1,
   (fast_path_no_buffering (sha_256_init blank) (List.replicate 64 0x61) rfl (by decide)
      (by decide)).2.1⟩

/-! ## Inputs of whole blocks (C18) -/

/-- C18: for every input of bytes whose length is a multiple of 64 (the empty
input included) and below `2^61`, `sha_256_init`, `sha_256_write` of the
input and `sha_256_close` leave in `buffer[0..32)` the SHA-256 digest of
FIPS 180-4: with no byte pending in the buffer, the length field that
`sha_256_close` writes is the bit length `8 * |S|`. -/
theorem whole_blocks_digest_is_fips (sha0 : Sha_256) (data : List Nat)
    (hb : sha0.buffer.length = 64) (hB : Bytes data) (h64 : data.length % 64 = 0)
    (hN : data.length < 2 ^ 61) :
    hash_chunks sha0 [data] = some (FIPS.sha256 data) ∧
    finalcount (sha_256_write (sha_256_init sha0) data).length
      = FIPS.be_bytes 8 (8 * data.length) := by
  constructor
  · rw [run_digest sha0 data hb hB, run_stream_whole_blocks data h64 hN]
    rfl
  · have hlen : (sha_256_write (sha_256_init sha0) data).length = bump (data.length / 64) 0 := by
      rw [write_length _ _ (Nat.zero_le _)]; simp [sha_256_init]
    have hL : bump (data.length / 64) 0 = 8 * data.length := by
      rw [bump_eq _ _ (by norm_num)]; omega
    rw [hlen, hL, finalcount_eq]

/-- Witness of C18: the input of 64 bytes `a`. -/
theorem whole_blocks_digest_is_fips_witness :
    blank.buffer.length = 64 ∧ Bytes (List.replicate 64 0x61) ∧
    (List.replicate 64 0x61).length % 64 = 0 ∧ (List.replicate 64 0x61).length < 2 ^ 61 ∧
    hash_chunks blank [List.replicate 64 0x61] = some (FIPS.sha256 (List.replicate 64 0x61)) :=
  ⟨rfl, by unfold Bytes; decide, by decide, by decide,
   (whole_blocks_digest_is_fips blank (List.replicate 64 0x61) rfl (by unfold Bytes; decide)
      (by decide) (by decide)).1⟩

/-! ## Bounds and progress of the copy (C19) -/

/-- C19: bounds and progress in `sha_256_write`.  In an iteration that takes
the buffered branch from `curlen ≤ 63` with `r ≥ 1` bytes left, the copy count
`n` satisfies `1 ≤ n ≤ min(64 - curlen, r)`: the copy stays inside
`buffer[0..64)` and inside the remaining input, the input left is the old one
without its first `n` bytes, strictly shorter, and `curlen ≤ 63` again.  Hence
the loop ends: any bound of at least `r` iterations gives the result of
`sha_256_write`. -/
theorem write_copy_in_bounds (sha : Sha_256) (data : List Nat) (hc : sha.curlen ≤ 63)
    (hr : 1 ≤ data.length) (hslow : ¬ (sha.curlen = 0 ∧ data.length ≥ 64)) :
    1 ≤ copy_count sha.curlen data.length ∧
    copy_count sha.curlen data.length ≤ min (64 - sha.curlen) data.length ∧
    sha.curlen + copy_count sha.curlen data.length ≤ 64 ∧
    (sha_256_write_step sha data).2 = data.drop (copy_count sha.curlen data.length) ∧
    (sha_256_write_step sha data).2.length < data.length ∧
    (sha_256_write_step sha data).1.curlen ≤ 63 ∧
    ∀ fuel, data.length ≤ fuel →
      sha_256_write_loop fuel sha data = sha_256_write sha data := by
  have hcc := copy_count_eq sha.curlen data.length hc
  have hd : data ≠ [] := by
    intro h; rw [h] at hr; simp at hr
  have hp := write_step_progress sha data hc hd
  refine ⟨by omega, by omega, by omega, ?_, hp.1, hp.2, ?_⟩
  · simp [sha_256_write_step, hslow]
  · intro fuel hf
    exact sha_256_write_loop_fuel fuel sha data hf hc

/-- Witness of C19: 5 bytes left at `curlen = 62`, of which 2 are copied. -/
theorem write_copy_in_bounds_witness :
    ({ blank with curlen := 62 } : Sha_256).curlen ≤ 63 ∧ 1 ≤ [1, 2, 3, 4, 5].length ∧
    ¬ (({ blank with curlen := 62 } : Sha_256).curlen = 0 ∧ [1, 2, 3, 4, 5].length ≥ 64) ∧
    copy_count 62 5 = 2 ∧
    (sha_256_write_step { blank with curlen := 62 } [1, 2, 3, 4, 5]).2.length
      < [1, 2, 3, 4, 5].length :=
  ⟨by decide, by decide, by decide, by decide,
   (write_copy_in_bounds { blank with curlen := 62 } [1, 2, 3, 4, 5] (by decide) (by decide)
      (by decide)).2.2.2.2.1⟩

/-! ## Padding is injective (C20) -/

/-- C20: padding is injective.  The blocks that `sha_256_init`, `sha_256_write`
and `sha_256_close` pass to `sha_256_transform` are 64 bytes each and are, one
after the other, the input followed by `0x80`, the zero bytes and the 8 bytes
of the length field; for two distinct inputs the sequences of blocks are
different. -/
theorem padding_injective (sha0 sha1 : Sha_256) (S T : List Nat)
    (h0 : sha0.buffer.length = 64) (h1 : sha1.buffer.length = 64) (hne : S ≠ T) :
    run_calls sha0 S ≠ run_calls sha1 T ∧
    (run_calls sha0 S).flatten = S ++ [0x80]
      ++ List.replicate ((55 + 64 - S.length % 64) % 64) 0
      ++ finalcount (sha_256_write (sha_256_init sha0) S).length ∧
    ∀ b ∈ run_calls sha0 S, b.length = 64 := by
  refine ⟨?_, ?_, (run_calls_spec sha0 S h0).block⟩
  · intro h
    apply hne
    apply run_stream_injective
    rw [← run_calls_flatten sha0 S h0, ← run_calls_flatten sha1 T h1, h]
  · have hlen : (sha_256_write (sha_256_init sha0) S).length = bump (S.length / 64) 0 := by
      rw [write_length _ _ (Nat.zero_le _)]; simp [sha_256_init]
    rw [run_calls_flatten sha0 S h0, hlen]
    simp [run_stream, close_bytes]

/-- Witness of C20: the empty input and the input of the one byte `0x80`. -/
theorem padding_injective_witness :
    blank.buffer.length = 64 ∧ ([] : List Nat) ≠ [0x80] ∧
    run_calls blank [] ≠ run_calls blank [0x80] :=
  ⟨rfl, by decide, (padding_injective blank blank [] [0x80] rfl rfl (by decide)).1⟩

end Sha256
